import Mathlib

/-!
Verification development for the PTH (pre-tokenized header) writer of
`Driver/CacheTokens.cpp`.

The C++ source is shallowly embedded: byte output is a `List Nat` of byte
values, 32-bit machine arithmetic is `Nat` with explicit `% 2^32` where
overflow matters, the on-disk chained hash table generator is a state
structure with explicit bucket lists, and the token-lexing loop of
`PTHWriter::LexTokens` is a fuel-indexed recursive function returning
`Option` (where `none` models a failed debug assertion or exhausted fuel).
-/

namespace PTH

/-- Two-byte little-endian encoding, as written by `Emit16` (the low 16 bits
of the argument; the source asserts the high bits are zero at the call
sites it is used, production builds truncate). -/
def enc16 (v : Nat) : List Nat :=
  [v % 256, v / 256 % 256]

/-- Four-byte little-endian encoding, as written by `Emit32` (the low 32
bits of the argument, matching the C cast-to-`unsigned char` chain). -/
def enc32 (v : Nat) : List Nat :=
  [v % 256, v / 256 % 256, v / 2 ^ 16 % 256, v / 2 ^ 24 % 256]

/-- Eight-byte little-endian encoding, as written by `Emit64`. -/
def enc64 (v : Nat) : List Nat :=
  [v % 256, v / 256 % 256, v / 2 ^ 16 % 256, v / 2 ^ 24 % 256,
   v / 2 ^ 32 % 256, v / 2 ^ 40 % 256, v / 2 ^ 48 % 256, v / 2 ^ 56 % 256]

/-- Decode four little-endian bytes back into the 32-bit value they denote. -/
def decode32 (bs : List Nat) : Nat :=
  bs.getD 0 0 + 256 * bs.getD 1 0 + 2 ^ 16 * bs.getD 2 0 + 2 ^ 24 * bs.getD 3 0

theorem enc32_length (v : Nat) : (enc32 v).length = 4 := rfl

/-- `Emit32` writes exactly the low 32 bits: decoding recovers `v % 2^32`. -/
theorem decode32_enc32 (v : Nat) : decode32 (enc32 v) = v % 2 ^ 32 := by
  simp only [decode32, enc32, List.getD_cons_zero, List.getD_cons_succ]
  omega

/-- Number of zero bytes `Pad(Out, 4)` appends at offset `off`. -/
def padLen4 (off : Nat) : Nat := (4 - off % 4) % 4

theorem padLen4_aligns (off : Nat) : (off + padLen4 off) % 4 = 0 := by
  simp only [padLen4]; omega

/-- The Bernstein hash of `BernsteinHash`, folded over the bytes before the
terminating NUL, in 32-bit unsigned arithmetic. -/
def bernsteinHash (s : List Nat) : Nat :=
  let r := s.foldl (fun r b => (r * 33 + b) % 2 ^ 32) 0
  (r + r / 2 ^ 5) % 2 ^ 32

/-! ## On-disk chained hash table generator

`OnDiskChainedHashTableGenerator<Info>`: buckets are lists of items with the
most recently head-inserted item first; the trait `Info` is a structure of
the four operations (hash, key/data length emission, key emission, data
emission).  The length emitter returns both the bytes of the length
prologue it writes and the `(key bytes, data bytes)` pair, mirroring
`Info::EmitKeyDataLength` which writes to the stream and returns lengths. -/

structure HItem (κ δ : Type) where
  key : κ
  data : δ
  hash : Nat
deriving Repr, DecidableEq

structure HInfo (κ δ : Type) where
  computeHash : κ → Nat
  emitKeyDataLength : κ → δ → List Nat × Nat × Nat
  emitKey : κ → Nat → List Nat
  emitData : κ → δ → Nat → List Nat

structure HTGen (κ δ : Type) where
  numBuckets : Nat
  numEntries : Nat
  buckets : List (List (HItem κ δ))
deriving Repr, DecidableEq

def modifyIdx {α : Type} (l : List α) (i : Nat) (f : α → α) : List α :=
  match l, i with
  | [], _ => []
  | x :: xs, 0 => f x :: xs
  | x :: xs, n + 1 => x :: modifyIdx xs n f

/-- `insert(Bucket* b, size_t size, Item* E)`: head-insert the item into
bucket `E->hash & (size - 1)`; `size` is a power of two so the mask equals
`E->hash % size`. -/
def bucketInsert {κ δ : Type} (bs : List (List (HItem κ δ))) (size : Nat)
    (e : HItem κ δ) : List (List (HItem κ δ)) :=
  modifyIdx bs (e.hash % size) (fun l => e :: l)

/-- `resize(newsize)`: walk the old buckets in index order and each bucket
head-to-tail, re-inserting every item into freshly zeroed buckets. -/
def htResize {κ δ : Type} (g : HTGen κ δ) (newsize : Nat) : HTGen κ δ :=
  let newBuckets :=
    g.buckets.foldl
      (fun nbs blist => blist.foldl (fun nbs it => bucketInsert nbs newsize it) nbs)
      (List.replicate newsize ([] : List (HItem κ δ)))
  { numBuckets := newsize, numEntries := g.numEntries, buckets := newBuckets }

/-- `insert(key, data)`: bump `NumEntries`, resize at load factor 3/4, then
place the new item (hash computed at construction) into the, possibly
resized, buckets. -/
def htInsert {κ δ : Type} (info : HInfo κ δ) (g : HTGen κ δ) (k : κ) (d : δ) :
    HTGen κ δ :=
  if 4 * (g.numEntries + 1) ≥ 3 * g.numBuckets then
    { numBuckets := g.numBuckets * 2, numEntries := g.numEntries + 1,
      buckets := bucketInsert
        (htResize { g with numEntries := g.numEntries + 1 } (g.numBuckets * 2)).buckets
        (g.numBuckets * 2) ⟨k, d, info.computeHash k⟩ }
  else
    { numBuckets := g.numBuckets, numEntries := g.numEntries + 1,
      buckets := bucketInsert g.buckets g.numBuckets ⟨k, d, info.computeHash k⟩ }

/-- The freshly constructed generator: 64 calloc-zeroed buckets. -/
def htNew (κ δ : Type) : HTGen κ δ :=
  { numBuckets := 64, numEntries := 0, buckets := List.replicate 64 [] }

def htInsertAll {κ δ : Type} (info : HInfo κ δ) (l : List (κ × δ)) : HTGen κ δ :=
  l.foldl (fun g kd => htInsert info g kd.1 kd.2) (htNew κ δ)

/-! ### C4: load-factor law and rehash-on-resize -/

/-- The structural invariant maintained by `insert`/`resize`:
`NumBuckets` is a power of two, at least 64, respects the load factor, and
is minimal (it is 64 or the previous size was at load); every item sits in
the bucket selected by `hash & (NumBuckets - 1)`, and there is one bucket
list per bucket index. -/
def htWF {κ δ : Type} (g : HTGen κ δ) : Prop :=
  (∃ k, g.numBuckets = 2 ^ k) ∧
  64 ≤ g.numBuckets ∧
  4 * g.numEntries < 3 * g.numBuckets ∧
  (g.numBuckets = 64 ∨ 3 * (g.numBuckets / 2) ≤ 4 * g.numEntries) ∧
  g.buckets.length = g.numBuckets ∧
  (∀ i, ∀ it ∈ g.buckets.getD i [], it.hash % g.numBuckets = i)

theorem modifyIdx_length {α : Type} (l : List α) (i : Nat) (f : α → α) :
    (modifyIdx l i f).length = l.length := by
  induction l generalizing i with
  | nil => rfl
  | cons x xs ih =>
    cases i with
    | zero => rfl
    | succ n => simpa [modifyIdx] using ih n

theorem modifyIdx_getD {α : Type} (l : List α) (i j : Nat) (f : α → α) (d : α) :
    (modifyIdx l i f).getD j d =
      if i = j ∧ j < l.length then f (l.getD j d) else l.getD j d := by
  induction l generalizing i j with
  | nil => simp [modifyIdx]
  | cons x xs ih =>
    cases i with
    | zero =>
      cases j with
      | zero => simp [modifyIdx]
      | succ m => simp [modifyIdx, List.getD]
    | succ n =>
      cases j with
      | zero => simp [modifyIdx, List.getD]
      | succ m =>
        simp only [modifyIdx, List.getD_cons_succ, List.length_cons, ih n m]
        by_cases h1 : n = m ∧ m < xs.length
        · rw [if_pos h1, if_pos (by omega)]
        · rw [if_neg h1, if_neg (by omega)]

/-- Per-bucket well-formedness at a given bucket count: one list per bucket
and every item in the bucket its hash selects. -/
def bucketsWF {κ δ : Type} (size : Nat) (bs : List (List (HItem κ δ))) : Prop :=
  bs.length = size ∧ ∀ i, ∀ it ∈ bs.getD i [], it.hash % size = i

theorem bucketsWF_insert {κ δ : Type} {size : Nat} (hpos : 0 < size)
    {bs : List (List (HItem κ δ))} (h : bucketsWF size bs) (e : HItem κ δ) :
    bucketsWF size (bucketInsert bs size e) := by
  obtain ⟨hlen, hin⟩ := h
  refine ⟨by simp [bucketInsert, modifyIdx_length, hlen], ?_⟩
  intro i it hit
  rw [bucketInsert, modifyIdx_getD] at hit
  split at hit
  case isTrue hcond =>
    rcases List.mem_cons.mp hit with h1 | h2
    · subst h1; exact hcond.1
    · exact hin i it h2
  case isFalse => exact hin i it hit

theorem bucketsWF_foldl {κ δ : Type} {size : Nat} (hpos : 0 < size)
    (items : List (HItem κ δ)) {bs : List (List (HItem κ δ))} (h : bucketsWF size bs) :
    bucketsWF size (items.foldl (fun nbs it => bucketInsert nbs size it) bs) := by
  induction items generalizing bs with
  | nil => exact h
  | cons x xs ih => exact ih (bucketsWF_insert hpos h x)

theorem getD_replicate_nil {α : Type} (n i : Nat) :
    (List.replicate n ([] : List α)).getD i [] = [] := by
  induction n generalizing i with
  | zero => cases i <;> rfl
  | succ m ih =>
    cases i with
    | zero => rfl
    | succ j => simpa [List.replicate_succ] using ih j

theorem bucketsWF_replicate {κ δ : Type} (size : Nat) :
    bucketsWF (κ := κ) (δ := δ) size (List.replicate size []) := by
  refine ⟨List.length_replicate _ _, ?_⟩
  intro i it hit
  rw [getD_replicate_nil] at hit
  exact absurd hit (List.not_mem_nil it)

theorem htResize_bucketsWF {κ δ : Type} (g : HTGen κ δ) {newsize : Nat}
    (hpos : 0 < newsize) : bucketsWF newsize (htResize g newsize).buckets := by
  have main : ∀ (obs : List (List (HItem κ δ))) (acc : List (List (HItem κ δ))),
      bucketsWF newsize acc →
      bucketsWF newsize (obs.foldl
        (fun nbs blist => blist.foldl (fun n it => bucketInsert n newsize it) nbs) acc) := by
    intro obs
    induction obs with
    | nil => intro acc h; exact h
    | cons b bs ih => intro acc h; exact ih _ (bucketsWF_foldl hpos b h)
  exact main _ _ (bucketsWF_replicate newsize)

theorem htResize_numBuckets {κ δ : Type} (g : HTGen κ δ) (newsize : Nat) :
    (htResize g newsize).numBuckets = newsize := rfl

theorem htResize_numEntries {κ δ : Type} (g : HTGen κ δ) (newsize : Nat) :
    (htResize g newsize).numEntries = g.numEntries := rfl

theorem htWF_new (κ δ : Type) : htWF (htNew κ δ) := by
  refine ⟨⟨6, rfl⟩, by simp [htNew], by simp [htNew], Or.inl rfl, by simp [htNew], ?_⟩
  intro i it hit
  have hrep : (htNew κ δ).buckets.getD i [] = [] := getD_replicate_nil 64 i
  rw [hrep] at hit
  exact absurd hit (List.not_mem_nil it)

theorem htInsert_numEntries {κ δ : Type} (info : HInfo κ δ) (g : HTGen κ δ) (k : κ) (d : δ) :
    (htInsert info g k d).numEntries = g.numEntries + 1 := by
  rw [htInsert]
  split <;> rfl

theorem htWF_insert {κ δ : Type} (info : HInfo κ δ) {g : HTGen κ δ} (h : htWF g)
    (k : κ) (d : δ) : htWF (htInsert info g k d) := by
  obtain ⟨⟨e, he⟩, h64, hlf, hmin, hlen, hbk⟩ := h
  rw [htInsert]
  split
  case isTrue hcond =>
    have hpos : 0 < g.numBuckets * 2 := by omega
    have hbw : bucketsWF (g.numBuckets * 2)
        (htResize { g with numEntries := g.numEntries + 1 } (g.numBuckets * 2)).buckets :=
      htResize_bucketsWF _ hpos
    have hbw2 := bucketsWF_insert hpos hbw ⟨k, d, info.computeHash k⟩
    refine ⟨⟨e + 1, ?_⟩, ?_, ?_, Or.inr ?_, hbw2.1, hbw2.2⟩
    · show g.numBuckets * 2 = 2 ^ (e + 1)
      rw [pow_succ]; omega
    · show 64 ≤ g.numBuckets * 2
      omega
    · show 4 * (g.numEntries + 1) < 3 * (g.numBuckets * 2)
      omega
    · show 3 * (g.numBuckets * 2 / 2) ≤ 4 * (g.numEntries + 1)
      omega
  case isFalse hcond =>
    have hpos : 0 < g.numBuckets := by omega
    have hbw2 := bucketsWF_insert hpos (⟨hlen, hbk⟩ : bucketsWF g.numBuckets g.buckets)
      ⟨k, d, info.computeHash k⟩
    refine ⟨⟨e, he⟩, h64, ?_, ?_, hbw2.1, hbw2.2⟩
    · show 4 * (g.numEntries + 1) < 3 * g.numBuckets
      omega
    · rcases hmin with hm | hm
      · exact Or.inl hm
      · refine Or.inr ?_
        show 3 * (g.numBuckets / 2) ≤ 4 * (g.numEntries + 1)
        omega

theorem htWF_insertAll {κ δ : Type} (info : HInfo κ δ) (l : List (κ × δ)) :
    htWF (htInsertAll info l) ∧ (htInsertAll info l).numEntries = l.length := by
  have main : ∀ (l : List (κ × δ)) (g : HTGen κ δ), htWF g →
      htWF (l.foldl (fun g kd => htInsert info g kd.1 kd.2) g) ∧
      (l.foldl (fun g kd => htInsert info g kd.1 kd.2) g).numEntries =
        g.numEntries + l.length := by
    intro l
    induction l with
    | nil => intro g hg; exact ⟨hg, by simp⟩
    | cons x xs ih =>
      intro g hg
      obtain ⟨h1, h2⟩ := ih (htInsert info g x.1 x.2) (htWF_insert info hg x.1 x.2)
      rw [List.foldl_cons]
      refine ⟨h1, ?_⟩
      rw [h2, htInsert_numEntries]
      simp only [List.length_cons]
      omega
  obtain ⟨h1, h2⟩ := main l (htNew κ δ) (htWF_new κ δ)
  refine ⟨h1, ?_⟩
  rw [htInsertAll, h2]
  show 0 + l.length = l.length
  omega

theorem htWF_minimal {κ δ : Type} {g : HTGen κ δ} (h : htWF g) :
    ∀ b, (∃ k, b = 2 ^ k) → 64 ≤ b → 4 * g.numEntries < 3 * b → g.numBuckets ≤ b := by
  rintro b ⟨k1, rfl⟩ hb hload
  obtain ⟨⟨k, hk⟩, h64, hlf, hmin, _, _⟩ := h
  by_contra hlt
  push_neg at hlt
  rcases hmin with hm | hm
  · omega
  · have hk1k : k1 < k := by
      by_contra hge
      push_neg at hge
      have : 2 ^ k ≤ 2 ^ k1 := Nat.pow_le_pow_right (by norm_num) hge
      omega
    have hkpos : 1 ≤ k := by omega
    have hhalf : g.numBuckets / 2 = 2 ^ (k - 1) := by
      rw [hk]
      have : 2 ^ k = 2 ^ (k - 1) * 2 := by
        rw [← pow_succ]
        congr 1
        omega
      rw [this, Nat.mul_div_cancel _ (by norm_num)]
    have hle : 2 ^ k1 ≤ 2 ^ (k - 1) := Nat.pow_le_pow_right (by norm_num) (by omega)
    rw [hhalf] at hm
    omega

/-- C4: for every hash table built with the generic builder, after inserting
`n` distinct keys `NumBuckets` is the smallest power of two that is at least
64 with `4 n < 3 * NumBuckets`; moreover every item sits in the bucket
`hash & (NumBuckets - 1)`, and any insert that makes
`4 * NumEntries ≥ 3 * NumBuckets` doubles the bucket count and leaves every
item, the new one included, in the bucket its hash selects modulo the
doubled count. -/
theorem C4_load_factor (κ δ : Type) (info : HInfo κ δ) (l : List (κ × δ))
    (hnd : (l.map Prod.fst).Nodup) :
    ((htInsertAll info l).numEntries = l.length ∧
      (∃ k, (htInsertAll info l).numBuckets = 2 ^ k) ∧
      64 ≤ (htInsertAll info l).numBuckets ∧
      4 * l.length < 3 * (htInsertAll info l).numBuckets ∧
      (∀ b, (∃ k, b = 2 ^ k) → 64 ≤ b → 4 * l.length < 3 * b →
        (htInsertAll info l).numBuckets ≤ b) ∧
      (∀ i, ∀ it ∈ (htInsertAll info l).buckets.getD i [],
        it.hash % (htInsertAll info l).numBuckets = i)) ∧
    (∀ st : HTGen κ δ, htWF st → 4 * (st.numEntries + 1) ≥ 3 * st.numBuckets →
      ∀ k d, (htInsert info st k d).numBuckets = 2 * st.numBuckets ∧
        ∀ i, ∀ it ∈ (htInsert info st k d).buckets.getD i [],
          it.hash % (2 * st.numBuckets) = i) := by
  obtain ⟨hwf, hne⟩ := htWF_insertAll info l
  constructor
  · obtain ⟨hpow, h64, hlf, hmin, hlen, hbk⟩ := hwf
    refine ⟨hne, hpow, h64, by omega, ?_, hbk⟩
    intro b hb h64b hlfb
    rw [← hne] at hlfb
    exact htWF_minimal ⟨hpow, h64, hlf, hmin, hlen, hbk⟩ b hb h64b hlfb
  · intro st hst hcond k d
    obtain ⟨⟨e, he⟩, h64, hlf, hmin, hlen, hbk⟩ := hst
    have hpos : 0 < st.numBuckets * 2 := by omega
    have heq : htInsert info st k d =
        { numBuckets := st.numBuckets * 2, numEntries := st.numEntries + 1,
          buckets := bucketInsert
            (htResize { st with numEntries := st.numEntries + 1 } (st.numBuckets * 2)).buckets
            (st.numBuckets * 2) ⟨k, d, info.computeHash k⟩ } := by
      rw [htInsert, if_pos hcond]
    have hbw : bucketsWF (st.numBuckets * 2)
        (htResize { st with numEntries := st.numEntries + 1 } (st.numBuckets * 2)).buckets :=
      htResize_bucketsWF _ hpos
    have hbw2 := bucketsWF_insert hpos hbw ⟨k, d, info.computeHash k⟩
    rw [heq]
    constructor
    · show st.numBuckets * 2 = 2 * st.numBuckets
      omega
    · intro i it hit
      rw [Nat.mul_comm 2 st.numBuckets]
      exact hbw2.2 i it hit

/-- Witness for C4 at a concrete input: three distinct keys with identity
hash leave the table at the initial 64 buckets. -/
theorem C4_load_factor_witness :
    ([(0, 0), (1, 0), (2, 0)].map (Prod.fst (α := Nat) (β := Nat))).Nodup ∧
      64 ≤ (htInsertAll ⟨id, fun _ _ => ([], 0, 0), fun _ _ => [], fun _ _ _ => []⟩
        [(0, 0), (1, 0), (2, 0)]).numBuckets := by
  have hnd : ([(0, 0), (1, 0), (2, 0)].map (Prod.fst (α := Nat) (β := Nat))).Nodup := by
    decide
  exact ⟨hnd, (C4_load_factor Nat Nat ⟨id, fun _ _ => ([], 0, 0), fun _ _ => [],
    fun _ _ _ => []⟩ [(0, 0), (1, 0), (2, 0)] hnd).1.2.2.1⟩

/-! ### C7: the Emit protocol -/

/-- Bytes written for one item in `Emit`'s inner loop: `u32 hash`, the
length prologue written by `Info::EmitKeyDataLength`, the key bytes, the
data bytes. -/
def itemBytes {κ δ : Type} (info : HInfo κ δ) (it : HItem κ δ) : List Nat :=
  enc32 it.hash ++ (info.emitKeyDataLength it.key it.data).1 ++
    info.emitKey it.key (info.emitKeyDataLength it.key it.data).2.1 ++
    info.emitData it.key it.data (info.emitKeyDataLength it.key it.data).2.2

/-- Payload of one non-empty bucket: `u16` item count, then the items in
the bucket's in-memory list order (`for (Item *I = B.head; I; I = I->next)`). -/
def bucketPayload {κ δ : Type} (info : HInfo κ δ) (b : List (HItem κ δ)) : List Nat :=
  enc16 b.length ++ b.bind (itemBytes info)

/-- The payload pass of `Emit`: walk buckets in index order, skip empty ones
(their calloc-zeroed `off` stays 0), record each non-empty bucket's payload
offset at the current write position.  Returns (payload bytes, per-bucket
offset slots). -/
def emitBuckets {κ δ : Type} (info : HInfo κ δ) (startOff : Nat) :
    List (List (HItem κ δ)) → List Nat × List Nat
  | [] => ([], [])
  | b :: bs =>
    match b with
    | [] =>
      let rest := emitBuckets info startOff bs
      (rest.1, 0 :: rest.2)
    | x :: xs =>
      let pl := bucketPayload info (x :: xs)
      let rest := emitBuckets info (startOff + pl.length) bs
      (pl ++ rest.1, startOff :: rest.2)

/-- `Emit`: payload, pad to 4-byte alignment, then at `TableOff` the header
`u32 NumBuckets`, `u32 NumEntries` and the `NumBuckets` offset slots. -/
def htEmit {κ δ : Type} (info : HInfo κ δ) (g : HTGen κ δ) (startOff : Nat) :
    List Nat × Nat :=
  let bo := emitBuckets info startOff g.buckets
  let padN := padLen4 (startOff + bo.1.length)
  let tableOff := startOff + bo.1.length + padN
  (bo.1 ++ List.replicate padN 0 ++ enc32 g.numBuckets ++ enc32 g.numEntries ++
    bo.2.bind enc32, tableOff)

/-- Total size of the payloads of the non-empty buckets before index `i`. -/
def payloadsBefore {κ δ : Type} (info : HInfo κ δ) (bs : List (List (HItem κ δ)))
    (i : Nat) : Nat :=
  ((bs.take i).map (fun b => if b.isEmpty then 0 else (bucketPayload info b).length)).sum

theorem payloadsBefore_zero {κ δ : Type} (info : HInfo κ δ)
    (bs : List (List (HItem κ δ))) : payloadsBefore info bs 0 = 0 := rfl

theorem payloadsBefore_cons {κ δ : Type} (info : HInfo κ δ) (b : List (HItem κ δ))
    (rest : List (List (HItem κ δ))) (j : Nat) :
    payloadsBefore info (b :: rest) (j + 1) =
      (if b.isEmpty then 0 else (bucketPayload info b).length) +
        payloadsBefore info rest j := by
  simp [payloadsBefore, List.take_succ_cons]

/-- Full characterization of the payload pass: the payload is the
concatenation of the non-empty buckets' payloads in bucket-index order; the
offset slot of an empty bucket is 0, and the slot of a non-empty bucket is
the start of its payload. -/
theorem emitBuckets_spec {κ δ : Type} (info : HInfo κ δ) :
    ∀ (bs : List (List (HItem κ δ))) (startOff : Nat),
      (emitBuckets info startOff bs).1 =
        (bs.filter (fun b => !b.isEmpty)).bind (bucketPayload info) ∧
      (emitBuckets info startOff bs).2.length = bs.length ∧
      ∀ i, i < bs.length →
        (bs.getD i [] = [] → (emitBuckets info startOff bs).2.getD i 0 = 0) ∧
        (bs.getD i [] ≠ [] → (emitBuckets info startOff bs).2.getD i 0 =
          startOff + payloadsBefore info bs i) := by
  intro bs
  induction bs with
  | nil => intro startOff; exact ⟨rfl, rfl, fun i hi => absurd hi (by simp)⟩
  | cons b rest ih =>
    intro startOff
    match b with
    | [] =>
      obtain ⟨hb, hl, hoffs⟩ := ih startOff
      refine ⟨?_, ?_, ?_⟩
      · simpa [emitBuckets] using hb
      · simpa [emitBuckets] using hl
      · intro i hi
        cases i with
        | zero => exact ⟨fun _ => rfl, fun hne => absurd rfl hne⟩
        | succ j =>
          have hj : j < rest.length := by simpa using hi
          obtain ⟨h0, h1⟩ := hoffs j hj
          constructor
          · intro he
            simpa [emitBuckets] using h0 (by simpa using he)
          · intro hne
            have hrec := h1 (by simpa using hne)
            have hpb : payloadsBefore info ([] :: rest) (j + 1) =
                payloadsBefore info rest j := by
              rw [payloadsBefore_cons]; simp
            simp only [emitBuckets, List.getD_cons_succ]
            rw [hpb]
            exact hrec
    | x :: xs =>
      obtain ⟨hb, hl, hoffs⟩ := ih (startOff + (bucketPayload info (x :: xs)).length)
      refine ⟨?_, ?_, ?_⟩
      · simpa [emitBuckets] using hb
      · simpa [emitBuckets] using hl
      · intro i hi
        cases i with
        | zero =>
          refine ⟨fun he => by simp at he, fun _ => ?_⟩
          simp [emitBuckets, payloadsBefore_zero]
        | succ j =>
          have hj : j < rest.length := by simpa using hi
          obtain ⟨h0, h1⟩ := hoffs j hj
          constructor
          · intro he
            simpa [emitBuckets] using h0 (by simpa using he)
          · intro hne
            have hrec := h1 (by simpa using hne)
            have hpb : payloadsBefore info ((x :: xs) :: rest) (j + 1) =
                (bucketPayload info (x :: xs)).length + payloadsBefore info rest j := by
              rw [payloadsBefore_cons]; simp
            simp only [emitBuckets, List.getD_cons_succ]
            rw [hpb]
            omega

/-- C7 (amended): `Emit` writes the payload of every non-empty bucket in
bucket-index order with each bucket's items in the bucket's in-memory list
order (which is reverse insertion order only in the absence of resizes),
then pads to 4-byte alignment, and at the returned `TableOff` writes
`u32 NumBuckets`, `u32 NumEntries` and `NumBuckets` `u32` bucket payload
offsets in which every empty bucket contributes a zero slot. -/
theorem C7_emit_layout (κ δ : Type) (info : HInfo κ δ) (g : HTGen κ δ) (startOff : Nat) :
    (htEmit info g startOff).1 =
      (g.buckets.filter (fun b => !b.isEmpty)).bind (bucketPayload info) ++
        List.replicate
          (padLen4 (startOff +
            ((g.buckets.filter (fun b => !b.isEmpty)).bind (bucketPayload info)).length)) 0 ++
        enc32 g.numBuckets ++ enc32 g.numEntries ++
        (emitBuckets info startOff g.buckets).2.bind enc32 ∧
    (htEmit info g startOff).2 % 4 = 0 ∧
    (htEmit info g startOff).2 =
      startOff + (emitBuckets info startOff g.buckets).1.length +
        padLen4 (startOff + (emitBuckets info startOff g.buckets).1.length) ∧
    (emitBuckets info startOff g.buckets).2.length = g.buckets.length ∧
    (∀ i, i < g.buckets.length →
      (g.buckets.getD i [] = [] → (emitBuckets info startOff g.buckets).2.getD i 0 = 0) ∧
      (g.buckets.getD i [] ≠ [] → (emitBuckets info startOff g.buckets).2.getD i 0 =
        startOff + payloadsBefore info g.buckets i)) ∧
    (∀ b : List (HItem κ δ),
      bucketPayload info b = enc16 b.length ++ b.bind (itemBytes info)) := by
  obtain ⟨hb, hl, hoffs⟩ := emitBuckets_spec info g.buckets startOff
  refine ⟨?_, ?_, rfl, hl, hoffs, fun b => rfl⟩
  · show (emitBuckets info startOff g.buckets).1 ++ _ ++ _ ++ _ ++ _ = _
    rw [hb]
  · show (startOff + (emitBuckets info startOff g.buckets).1.length +
      padLen4 (startOff + (emitBuckets info startOff g.buckets).1.length)) % 4 = 0
    exact padLen4_aligns _

/-- The constant-hash trait used to exhibit the intra-bucket order after a
resize; keys are bytes so the item order is visible in the payload. -/
def constHashInfo : HInfo Nat Nat :=
  ⟨fun _ => 0, fun _ _ => ([], 0, 0), fun k _ => [k % 256], fun _ _ _ => []⟩

/-- 48 inserts with a constant hash: the 48th insert triggers the resize. -/
def cex48 : HTGen Nat Nat :=
  htInsertAll constHashInfo ((List.range 48).map (fun k => (k, k)))

set_option maxRecDepth 100000 in
/-- Counterexample to C7 as stated: after the resize forced by the 48th
insert, bucket 0 holds the newest item first but then the remaining 47
items in INSERTION order (the resize reversed them), so the emitted bucket
payload is not the later-inserted-first payload. -/
theorem C7_counterexample :
    (cex48.buckets.getD 0 []).map (fun it => it.key) = 47 :: List.range 47 ∧
    bucketPayload constHashInfo (cex48.buckets.getD 0 []) ≠
      bucketPayload constHashInfo
        ((List.range 48).reverse.map (fun k => ⟨k, k, 0⟩)) := by
  constructor
  · decide
  · decide

/-- Witness for C7 at a concrete input: in the freshly built 64-bucket
table all buckets are empty, so bucket 0's offset slot is zero. -/
theorem C7_emit_layout_witness :
    (emitBuckets constHashInfo 0 (htNew Nat Nat).buckets).2.getD 0 0 = 0 :=
  ((C7_emit_layout Nat Nat constHashInfo (htNew Nat Nat) 0).2.2.2.2.1 0
    (by decide)).1 (by decide)

/-! ## PTH writer state and token emission

Tokens are the values handed over by the raw lexer (a collaborator): a
kind, the flag bits (bit 0 is `Token::StartOfLine`), the length, the
absolute file offset of the location, the token's text (its spelling; for
identifier tokens this is the name used to intern), and the identifier
handle set by `LookUpIdentifierInfo` (`none` until set, identifiers intern
by name so the handle is the name). -/

inductive TokKind : Type
  | unknown
  | eof
  | eom
  | identifier
  | numericConstant
  | charConstant
  | stringLit
  | wideStringLit
  | angleStringLit
  | hash
  | otherKind (n : Nat)
deriving Repr, DecidableEq

/-- Numeric value of the collaborator enum `tok::TokenKind` for the kinds
the model distinguishes (the concrete codes are fixed by the lexer's token
kind list; only their smallness matters here). -/
def kindCode : TokKind → Nat
  | .unknown => 0
  | .eof => 1
  | .eom => 2
  | .identifier => 4
  | .numericConstant => 5
  | .charConstant => 6
  | .stringLit => 7
  | .wideStringLit => 8
  | .angleStringLit => 9
  | .hash => 20
  | .otherKind n => n

/-- `Token::isLiteral()`: numeric, character and string constants. -/
def TokKind.isLiteral : TokKind → Bool
  | .numericConstant | .charConstant | .stringLit | .wideStringLit
  | .angleStringLit => true
  | _ => false

structure RawToken where
  kind : TokKind
  flags : Nat
  length : Nat
  fileOffset : Nat
  text : List Nat
  ii : Option (List Nat)
deriving Repr, DecidableEq

/-- `Token::isAtStartOfLine()`: flag bit 0x01. -/
def isSOL (t : RawToken) : Bool := t.flags % 2 == 1

/-- `Tok.setIdentifierInfo(PP.LookUpIdentifierInfo(Tok))`: the interner is
keyed by the token's name. -/
def setII (t : RawToken) : RawToken := { t with ii := some t.text }

/-- The synthesized end-of-directive token: a copy of the upcoming token
with kind `eom`, the StartOfLine flag cleared and the identifier nulled. -/
def mkEom (t : RawToken) : RawToken :=
  { t with kind := .eom, flags := t.flags - t.flags % 2, ii := none }

/-- Writer state: the output bytes so far, the identifier map (names in
first-seen order, persistent ID = index + 1, so `idcount` is the length),
the spelling pool (content-keyed entries in insertion order with their
frozen offsets), and the running pool cursor `CurStrOffset`. -/
structure WState where
  out : List Nat
  im : List (List Nat)
  cachedStrs : List (List Nat × Nat)
  curStrOffset : Nat
deriving Repr, DecidableEq

/-- Position of a name in the identifier map, if present. -/
def imFind (im : List (List Nat)) (s : List Nat) : Option Nat :=
  match im with
  | [] => none
  | x :: xs => if x = s then some 0 else (imFind xs s).map (· + 1)

/-- `PTHWriter::ResolveID`: 0 for a null handle; otherwise the already
assigned ID, or `++idcount` for a first-seen handle. -/
def resolveID (w : WState) (ii : Option (List Nat)) : Nat × WState :=
  match ii with
  | none => (0, w)
  | some s =>
    match imFind w.im s with
    | some i => (i + 1, w)
    | none => (w.im.length + 1, { w with im := w.im ++ [s] })

/-- Spelling-pool lookup (`CachedStrs.GetOrCreateValue` plus the
`hasOffset` check): a new key is assigned the current `CurStrOffset`,
appended to `StrEntries`, and the cursor advances by `size + 1`. -/
def poolLookup (w : WState) (s : List Nat) : Nat × WState :=
  match (w.cachedStrs.find? (fun e => e.1 == s)).map Prod.snd with
  | some off => (off, w)
  | none =>
    (w.curStrOffset,
     { w with cachedStrs := w.cachedStrs ++ [(s, w.curStrOffset)],
              curStrOffset := w.curStrOffset + s.length + 1 })

/-- `PTHWriter::EmitToken`: three little-endian 32-bit words. -/
def emitToken (t : RawToken) (w : WState) : WState :=
  let word0 := kindCode t.kind ||| (t.flags <<< 8) ||| (t.length <<< 16)
  if t.kind.isLiteral then
    let r := poolLookup w t.text
    { r.2 with out := r.2.out ++ enc32 word0 ++ enc32 r.1 ++ enc32 t.fileOffset }
  else
    let r := resolveID w t.ii
    { r.2 with out := r.2.out ++ enc32 word0 ++ enc32 r.1 ++ enc32 t.fileOffset }

/-- `PTHWriter::EmitCachedSpellings`: record the section offset, then walk
`StrEntries` in insertion order writing each key's bytes and a NUL. -/
def emitCachedSpellings (w : WState) : WState × Nat :=
  ({ w with out := w.out ++ w.cachedStrs.bind (fun e => e.1 ++ [0]) }, w.out.length)

/-! ### C6: identifier interning -/

theorem imFind_getD (im : List (List Nat)) (s : List Nat) (i : Nat)
    (h : imFind im s = some i) : im.getD i [] = s := by
  induction im generalizing i with
  | nil => simp [imFind] at h
  | cons x xs ih =>
    rw [imFind] at h
    split at h
    case isTrue heq =>
      obtain rfl : i = 0 := by simpa using h.symm
      simpa using heq
    case isFalse =>
      match hf : imFind xs s with
      | none => rw [hf] at h; simp at h
      | some j =>
        rw [hf] at h
        obtain rfl : i = j + 1 := by simpa using h.symm
        simpa using ih j hf

theorem imFind_append (im suffix : List (List Nat)) (s : List Nat) (i : Nat)
    (h : imFind im s = some i) : imFind (im ++ suffix) s = some i := by
  induction im generalizing i with
  | nil => simp [imFind] at h
  | cons x xs ih =>
    rw [imFind] at h
    rw [List.cons_append, imFind]
    split at h
    case isTrue heq => rw [if_pos heq]; exact h
    case isFalse hne =>
      rw [if_neg hne]
      match hf : imFind xs s with
      | none => rw [hf] at h; simp at h
      | some j =>
        rw [hf] at h
        rw [ih j hf]
        exact h

/-- C6: `ResolveID` returns 0 for a null handle, returns the recorded ID
without touching the map when the handle was seen before, assigns
`idcount + 1` and appends the name on first sight (so IDs are dense,
1-based, in first-seen order), never maps two handles to one live ID (the
map at `ID - 1` recovers the handle and is append-only), and on the token
sequence `foo bar foo` yields IDs 1, 2, 1 with `idcount = 2`. -/
theorem C6_resolveID :
    (∀ w, resolveID w none = (0, w)) ∧
    (∀ w s i, imFind w.im s = some i → resolveID w (some s) = (i + 1, w)) ∧
    (∀ w s, imFind w.im s = none →
      resolveID w (some s) = (w.im.length + 1, { w with im := w.im ++ [s] })) ∧
    (∀ im s i, imFind im s = some i → im.getD i [] = s) ∧
    (∀ im suffix s i, imFind im s = some i → imFind (im ++ suffix) s = some i) ∧
    ((resolveID ⟨[], [], [], 0⟩ (some [102, 111, 111])).1 = 1 ∧
     (resolveID (resolveID ⟨[], [], [], 0⟩ (some [102, 111, 111])).2
        (some [98, 97, 114])).1 = 2 ∧
     (resolveID (resolveID (resolveID ⟨[], [], [], 0⟩ (some [102, 111, 111])).2
        (some [98, 97, 114])).2 (some [102, 111, 111])).1 = 1 ∧
     (resolveID (resolveID (resolveID ⟨[], [], [], 0⟩ (some [102, 111, 111])).2
        (some [98, 97, 114])).2 (some [102, 111, 111])).2.im.length = 2) := by
  refine ⟨fun w => rfl, ?_, ?_, imFind_getD, fun im suffix => imFind_append im suffix, ?_⟩
  · intro w s i h
    rw [resolveID, h]
  · intro w s h
    rw [resolveID, h]
  · refine ⟨?_, ?_, ?_, ?_⟩ <;> decide

/-- Witness for C6: the already-interned name resolves to its recorded ID
at a concrete state. -/
theorem C6_resolveID_witness :
    resolveID ⟨[], [[102, 111, 111]], [], 0⟩ (some [102, 111, 111]) =
      (1, ⟨[], [[102, 111, 111]], [], 0⟩) :=
  C6_resolveID.2.1 ⟨[], [[102, 111, 111]], [], 0⟩ [102, 111, 111] 0 (by decide)

/-! ### C5: the spelling pool -/

/-- The offsets recorded in the pool are the running prefix sums of
`length + 1`, starting at `start`. -/
def offsOk (start : Nat) : List (List Nat × Nat) → Bool
  | [] => true
  | (s, o) :: rest => o == start && offsOk (start + s.length + 1) rest

/-- The pool cursor after laying out the entries from `start`. -/
def poolEnd (start : Nat) : List (List Nat × Nat) → Nat
  | [] => start
  | (s, _) :: rest => poolEnd (start + s.length + 1) rest

/-- The pool invariant of the writer state: entry offsets are the prefix
sums and `CurStrOffset` is their total. -/
def spellInv (w : WState) : Prop :=
  offsOk 0 w.cachedStrs = true ∧ w.curStrOffset = poolEnd 0 w.cachedStrs

theorem offsOk_append_new (s : List Nat) :
    ∀ (l : List (List Nat × Nat)) (start : Nat), offsOk start l = true →
      offsOk start (l ++ [(s, poolEnd start l)]) = true ∧
      poolEnd start (l ++ [(s, poolEnd start l)]) = poolEnd start l + s.length + 1 := by
  intro l
  induction l with
  | nil =>
    intro start _
    constructor
    · simp [offsOk, poolEnd]
    · simp [poolEnd]
  | cons e rest ih =>
    intro start h
    obtain ⟨e1, e2⟩ := e
    rw [offsOk, Bool.and_eq_true] at h
    obtain ⟨h1, h2⟩ := h
    obtain ⟨ih1, ih2⟩ := ih (start + e1.length + 1) h2
    constructor
    · rw [List.cons_append, offsOk, Bool.and_eq_true]
      exact ⟨h1, by rw [poolEnd]; exact ih1⟩
    · rw [List.cons_append, poolEnd, poolEnd]
      exact ih2

theorem resolveID_pool_state (w : WState) (o : Option (List Nat)) :
    (resolveID w o).2.cachedStrs = w.cachedStrs ∧
    (resolveID w o).2.curStrOffset = w.curStrOffset ∧
    (resolveID w o).2.out = w.out := by
  rcases o with _ | s
  · exact ⟨rfl, rfl, rfl⟩
  · simp only [resolveID]
    rcases hf : imFind w.im s with _ | i
    · exact ⟨rfl, rfl, rfl⟩
    · exact ⟨rfl, rfl, rfl⟩

theorem poolLookup_preserves (w : WState) (s : List Nat) (h : spellInv w) :
    spellInv (poolLookup w s).2 := by
  obtain ⟨h1, h2⟩ := h
  rcases hf : (w.cachedStrs.find? (fun e => e.1 == s)).map Prod.snd with _ | off
  · obtain ⟨g1, g2⟩ := offsOk_append_new s w.cachedStrs 0 h1
    rw [poolLookup, hf]
    constructor
    · show offsOk 0 (w.cachedStrs ++ [(s, w.curStrOffset)]) = true
      rw [h2]
      exact g1
    · show w.curStrOffset + s.length + 1 =
        poolEnd 0 (w.cachedStrs ++ [(s, w.curStrOffset)])
      rw [h2]
      exact g2.symm
  · rw [poolLookup, hf]
    exact ⟨h1, h2⟩

theorem emitToken_preserves_spellInv (t : RawToken) (w : WState) (h : spellInv w) :
    spellInv (emitToken t w) := by
  rw [emitToken]
  split
  · have hp := poolLookup_preserves w t.text h
    exact ⟨hp.1, hp.2⟩
  · obtain ⟨hc, hcur, _⟩ := resolveID_pool_state w t.ii
    constructor
    · show offsOk 0 (resolveID w t.ii).2.cachedStrs = true
      rw [hc]
      exact h.1
    · show (resolveID w t.ii).2.curStrOffset =
        poolEnd 0 (resolveID w t.ii).2.cachedStrs
      rw [hc, hcur]
      exact h.2

theorem pool_bytes_at (s : List Nat) (o : Nat) :
    ∀ (l : List (List Nat × Nat)) (start : Nat), offsOk start l = true →
      (s, o) ∈ l →
      start ≤ o ∧
      (((l.bind (fun e => e.1 ++ [0])).drop (o - start)).take (s.length + 1) =
        s ++ [0]) := by
  intro l
  induction l with
  | nil => intro start _ hmem; exact absurd hmem (List.not_mem_nil _)
  | cons e rest ih =>
    intro start h hmem
    obtain ⟨e1, e2⟩ := e
    rw [offsOk, Bool.and_eq_true] at h
    obtain ⟨h1, h2⟩ := h
    have h1' : e2 = start := by simpa using h1
    rcases List.mem_cons.mp hmem with hc | hc
    · rw [Prod.mk.injEq] at hc
      obtain ⟨rfl, rfl⟩ := hc
      subst h1'
      refine ⟨Nat.le_refl _, ?_⟩
      rw [Nat.sub_self, List.drop_zero]
      show ((s ++ [0]) ++ rest.bind (fun e => e.1 ++ [0])).take (s.length + 1) = s ++ [0]
      have hlen : (s ++ [0]).length = s.length + 1 := by simp
      rw [← hlen]
      exact List.take_left _ _
    · obtain ⟨hle, hrec⟩ := ih (start + e1.length + 1) h2 hc
      refine ⟨by omega, ?_⟩
      show (((e1 ++ [0]) ++ rest.bind (fun e => e.1 ++ [0])).drop (o - start)).take
        (s.length + 1) = s ++ [0]
      rw [List.drop_append_eq_append_drop, List.drop_eq_nil_of_le
        (by simp only [List.length_append, List.length_cons, List.length_nil]; omega),
        List.nil_append]
      have hidx : o - start - (e1 ++ [0]).length = o - (start + e1.length + 1) := by
        simp only [List.length_append, List.length_cons, List.length_nil]
        omega
      rw [hidx]
      exact hrec

/-- C5: the first sighting of a literal spelling assigns it the current
`CurStrOffset` and advances the cursor by its byte length plus one; later
sightings of the same byte content reuse the frozen offset unchanged; the
pool invariant is preserved by every token emission; and after
`EmitCachedSpellings` the bytes at `spelling_off + o` for every assigned
offset `o` are exactly the spelling bytes followed by a NUL. -/
theorem C5_spelling_pool :
    (∀ w s, (w.cachedStrs.find? (fun e => e.1 == s)).map Prod.snd = none →
      poolLookup w s =
        (w.curStrOffset,
         { w with cachedStrs := w.cachedStrs ++ [(s, w.curStrOffset)],
                  curStrOffset := w.curStrOffset + s.length + 1 })) ∧
    (∀ w s off, (w.cachedStrs.find? (fun e => e.1 == s)).map Prod.snd = some off →
      poolLookup w s = (off, w)) ∧
    (∀ t w, spellInv w → spellInv (emitToken t w)) ∧
    (∀ w, spellInv w → ∀ e ∈ w.cachedStrs,
      (((emitCachedSpellings w).1.out.drop ((emitCachedSpellings w).2 + e.2)).take
        (e.1.length + 1)) = e.1 ++ [0]) := by
  refine ⟨?_, ?_, emitToken_preserves_spellInv, ?_⟩
  · intro w s h
    rw [poolLookup, h]
  · intro w s off h
    rw [poolLookup, h]
  · intro w hinv e hmem
    obtain ⟨e1, e2⟩ := e
    obtain ⟨hle, hrec⟩ := pool_bytes_at e1 e2 w.cachedStrs 0 hinv.1 hmem
    show ((w.out ++ w.cachedStrs.bind (fun e => e.1 ++ [0])).drop
      (w.out.length + e2)).take (e1.length + 1) = e1 ++ [0]
    rw [List.drop_append_eq_append_drop]
    rw [List.drop_eq_nil_of_le (by omega)]
    have hdrop2 : w.out.length + e2 - w.out.length = e2 := by omega
    rw [hdrop2, List.nil_append]
    simpa using hrec

/-- Witness for C5: a fresh spelling in the empty state is assigned offset
0 and the cursor advances to 3 for the two-byte spelling `42`. -/
theorem C5_spelling_pool_witness :
    poolLookup ⟨[], [], [], 0⟩ [52, 50] =
      (0, { out := [], im := [], cachedStrs := [([52, 50], 0)], curStrOffset := 3 }) :=
  C5_spelling_pool.1 ⟨[], [], [], 0⟩ [52, 50] (by decide)

/-! ### C3: token records -/

theorem poolLookup_out (w : WState) (s : List Nat) :
    (poolLookup w s).2.out = w.out := by
  rcases hf : (w.cachedStrs.find? (fun e => e.1 == s)).map Prod.snd with _ | off <;>
    rw [poolLookup, hf]

theorem drop_append_self (l m : List Nat) (k : Nat) :
    (l ++ m).drop (l.length + k) = m.drop k := by
  rw [List.drop_append_eq_append_drop, List.drop_eq_nil_of_le (by omega), List.nil_append]
  congr 1
  omega

theorem take4_enc32 (v : Nat) (rest : List Nat) :
    (enc32 v ++ rest).take 4 = enc32 v := by
  rw [← enc32_length v]
  exact List.take_left _ _

theorem drop4_enc32 (v : Nat) (rest : List Nat) :
    (enc32 v ++ rest).drop 4 = rest := by
  rw [← enc32_length v]
  exact List.drop_left _ _

/-- The 12 bytes `EmitToken` appends: word0, then the pool offset for a
literal or the persistent ID otherwise, then the file offset. -/
theorem emitToken_out (t : RawToken) (w : WState) :
    (emitToken t w).out =
      w.out ++ (enc32 (kindCode t.kind ||| (t.flags <<< 8) ||| (t.length <<< 16)) ++
        (enc32 (if t.kind.isLiteral then (poolLookup w t.text).1
                else (resolveID w t.ii).1) ++
         enc32 t.fileOffset)) := by
  by_cases hl : t.kind.isLiteral = true
  · rw [emitToken, if_pos hl, if_pos hl]
    show (poolLookup w t.text).2.out ++ enc32 _ ++ enc32 _ ++ enc32 _ = _
    rw [poolLookup_out]
    simp [List.append_assoc]
  · rw [emitToken, if_neg hl, if_neg hl]
    show (resolveID w t.ii).2.out ++ enc32 _ ++ enc32 _ ++ enc32 _ = _
    rw [(resolveID_pool_state w t.ii).2.2]
    simp [List.append_assoc]

theorem emitToken_len12 (t : RawToken) (w : WState) :
    (emitToken t w).out.length = w.out.length + 12 := by
  rw [emitToken_out t w]
  simp [enc32]

theorem emitToken_word1_decode (t : RawToken) (w : WState) :
    decode32 (((emitToken t w).out.drop (w.out.length + 4)).take 4) =
      (if t.kind.isLiteral then (poolLookup w t.text).1
       else (resolveID w t.ii).1) % 2 ^ 32 := by
  rw [emitToken_out t w, drop_append_self, drop4_enc32, take4_enc32, decode32_enc32]

theorem emitToken_word2_decode (t : RawToken) (w : WState) :
    decode32 (((emitToken t w).out.drop (w.out.length + 8)).take 4) =
      t.fileOffset % 2 ^ 32 := by
  rw [emitToken_out t w, drop_append_self]
  show decode32 (((enc32 (kindCode t.kind ||| (t.flags <<< 8) ||| (t.length <<< 16)) ++
    (enc32 (if t.kind.isLiteral then (poolLookup w t.text).1
            else (resolveID w t.ii).1) ++ enc32 t.fileOffset)).drop
      ((enc32 (kindCode t.kind ||| (t.flags <<< 8) ||| (t.length <<< 16))).length +
        4)).take 4) = t.fileOffset % 2 ^ 32
  rw [drop_append_self, drop4_enc32]
  rw [show (4 : Nat) = (enc32 t.fileOffset).length from rfl, List.take_length,
    decode32_enc32]

/-- C3 (amended): every emitted token occupies exactly 12 bytes; word0 is
`kind | (flags << 8) | (length << 16)` truncated to 32 bits — there is no
debug assertion in `EmitToken`, oversized fields silently wrap; word1 is
the spelling-pool offset for a literal and otherwise the persistent
identifier ID, which is 0 when the token has no identifier; word2 is the
token's file offset, truncated to 32 bits. -/
theorem C3_emitToken (t : RawToken) (w : WState) :
    (emitToken t w).out.length = w.out.length + 12 ∧
    decode32 (((emitToken t w).out.drop w.out.length).take 4) =
      (kindCode t.kind ||| (t.flags <<< 8) ||| (t.length <<< 16)) % 2 ^ 32 ∧
    decode32 (((emitToken t w).out.drop (w.out.length + 4)).take 4) =
      (if t.kind.isLiteral then (poolLookup w t.text).1
       else (resolveID w t.ii).1) % 2 ^ 32 ∧
    decode32 (((emitToken t w).out.drop (w.out.length + 8)).take 4) =
      t.fileOffset % 2 ^ 32 ∧
    (t.kind.isLiteral = false → t.ii = none →
      decode32 (((emitToken t w).out.drop (w.out.length + 4)).take 4) = 0) := by
  refine ⟨emitToken_len12 t w, ?_, emitToken_word1_decode t w,
    emitToken_word2_decode t w, ?_⟩
  · rw [emitToken_out t w, List.drop_left, take4_enc32, decode32_enc32]
  · intro hnl hii
    rw [emitToken_word1_decode t w,
      if_neg (by rw [hnl]; exact Bool.false_ne_true), hii]
    rfl

/-- Counterexample to C3 as stated: a token of length 70000 (kind
`identifier`, flags 0) is emitted with no assertion firing, and its word0
does not equal `kind | (flags << 8) | (length << 16)` — the length was
silently truncated modulo 2^16. -/
theorem C3_counterexample :
    decode32 ((emitToken ⟨.identifier, 0, 70000, 0, [], none⟩ ⟨[], [], [], 0⟩).out.take 4) ≠
      kindCode .identifier ||| ((0 : Nat) <<< 8) ||| ((70000 : Nat) <<< 16) := by
  decide

/-- Witness for C3 at a concrete input: a literal-free token with no
identifier gets word1 = 0. -/
theorem C3_emitToken_witness :
    decode32 (((emitToken ⟨.eom, 0, 1, 5, [], none⟩ ⟨[], [], [], 0⟩).out.drop
      (([] : List Nat).length + 4)).take 4) = 0 :=
  (C3_emitToken ⟨.eom, 0, 1, 5, [], none⟩ ⟨[], [], [], 0⟩).2.2.2.2 rfl rfl

/-! ### C2: the file-map key trait -/

def enc8 (v : Nat) : List Nat := [v % 256]

structure FileStat where
  inode : Nat
  device : Nat
  fileMode : Nat
  modTime : Nat
  size : Nat
deriving Repr, DecidableEq

/-- `PTHEntryKeyVariant`: a real file with stat metadata, a directory, or a
non-existent path.  The path bytes are the NUL-free content of the C
string. -/
inductive PTHEntryKeyVariant : Type
  | fe (path : List Nat) (stat : FileStat)
  | de (path : List Nat)
  | noExist (path : List Nat)
deriving Repr, DecidableEq

/-- `(token data offset, PPCond table offset)`. -/
structure PTHEntry where
  tokenData : Nat
  ppcondData : Nat
deriving Repr, DecidableEq

def keyPath : PTHEntryKeyVariant → List Nat
  | .fe p _ => p
  | .de p => p
  | .noExist p => p

/-- `getKind()`: `IsFE = 0x1`, `IsDE = 0x2`, `IsNoExist = 0x0`. -/
def keyKindCode : PTHEntryKeyVariant → Nat
  | .fe _ _ => 1
  | .de _ => 2
  | .noExist _ => 0

/-- `getRepresentationLength()`: `4+4+2+8+8` for real files, else 0. -/
def repLength : PTHEntryKeyVariant → Nat
  | .fe _ _ => 4 + 4 + 2 + 8 + 8
  | _ => 0

def keyIsFE : PTHEntryKeyVariant → Bool
  | .fe _ _ => true
  | _ => false

/-- The stat bytes `PTHEntryKeyVariant::EmitData` writes for a real file. -/
def keyStatBytes : PTHEntryKeyVariant → List Nat
  | .fe _ st =>
    enc32 st.inode ++ enc32 st.device ++ enc16 st.fileMode ++
      enc64 st.modTime ++ enc64 st.size
  | _ => []

/-- `FileEntryPTHEntryInfo`, instantiating the generic trait: the length
prologue is `u16 (strlen+2)` then `u8` data length; the key is the kind tag
followed by `n - 1` bytes of the NUL-terminated path; the data is the two
offsets then the stat info for real files. -/
def fileEntryPTHEntryInfo : HInfo PTHEntryKeyVariant PTHEntry :=
  { computeHash := fun v => bernsteinHash (keyPath v),
    emitKeyDataLength := fun v _ =>
      (enc16 ((keyPath v).length + 1 + 1) ++
         enc8 (repLength v + if keyIsFE v then 4 + 4 else 0),
       (keyPath v).length + 1 + 1,
       repLength v + if keyIsFE v then 4 + 4 else 0),
    emitKey := fun v n => enc8 (keyKindCode v) ++ (keyPath v ++ [0]).take (n - 1),
    emitData := fun v e _ =>
      (if keyIsFE v then enc32 e.tokenData ++ enc32 e.ppcondData else []) ++
        keyStatBytes v }

/-- C2 (amended): the key is emitted as a `u16` length equal to
`strlen(path) + 2`, then (after the `u8` data length) a 1-byte kind tag and
`strlen(path) + 1` further bytes — the path bytes FOLLOWED BY the NUL
terminator (`Out.write(cstr, n - 1)` with `n = strlen + 2`), so the length
field equals the total key size. -/
theorem C2_file_map_key (v : PTHEntryKeyVariant) (e : PTHEntry) :
    (fileEntryPTHEntryInfo.emitKeyDataLength v e).2.1 = (keyPath v).length + 2 ∧
    (fileEntryPTHEntryInfo.emitKeyDataLength v e).1 =
      enc16 ((keyPath v).length + 2) ++
        enc8 ((fileEntryPTHEntryInfo.emitKeyDataLength v e).2.2) ∧
    fileEntryPTHEntryInfo.emitKey v ((keyPath v).length + 2) =
      enc8 (keyKindCode v) ++ keyPath v ++ [0] ∧
    (fileEntryPTHEntryInfo.emitKey v ((keyPath v).length + 2)).length =
      (keyPath v).length + 2 ∧
    (keyIsFE v = true → (fileEntryPTHEntryInfo.emitKeyDataLength v e).2.2 = 34) ∧
    (keyIsFE v = false → (fileEntryPTHEntryInfo.emitKeyDataLength v e).2.2 = 0) := by
  have htake : (keyPath v ++ [0]).take ((keyPath v).length + 2 - 1) =
      keyPath v ++ [0] := by
    have h1 : (keyPath v).length + 2 - 1 = (keyPath v ++ [0]).length := by
      simp
    rw [h1, List.take_length]
  refine ⟨rfl, rfl, ?_, ?_, ?_, ?_⟩
  · show enc8 (keyKindCode v) ++ (keyPath v ++ [0]).take ((keyPath v).length + 2 - 1) =
      enc8 (keyKindCode v) ++ keyPath v ++ [0]
    rw [htake, List.append_assoc]
  · show (enc8 (keyKindCode v) ++
      (keyPath v ++ [0]).take ((keyPath v).length + 2 - 1)).length = _
    rw [htake]
    simp [enc8]
  · intro h
    cases v with
    | fe p st => rfl
    | de p => exact absurd h (by simp [keyIsFE])
    | noExist p => exact absurd h (by simp [keyIsFE])
  · intro h
    cases v with
    | fe p st => exact absurd h (by simp [keyIsFE])
    | de p => rfl
    | noExist p => rfl

/-- Counterexample to C2 as stated: for the one-byte path `a` of a real
file, `EmitKey` writes 3 bytes — the kind tag, the path byte and the NUL —
not the claimed kind tag plus exactly `strlen(path)` name bytes. -/
theorem C2_counterexample :
    fileEntryPTHEntryInfo.emitKey (PTHEntryKeyVariant.fe [97] ⟨1, 2, 3, 4, 5⟩) 3 =
      [1, 97, 0] ∧ ([1, 97, 0] : List Nat) ≠ [1, 97] := by
  constructor
  · decide
  · decide

/-- Witness for C2 at a concrete input: a real-file key has data length 34. -/
theorem C2_file_map_key_witness :
    (fileEntryPTHEntryInfo.emitKeyDataLength
      (PTHEntryKeyVariant.fe [97] ⟨1, 2, 3, 4, 5⟩) ⟨0, 0⟩).2.2 = 34 :=
  (C2_file_map_key (PTHEntryKeyVariant.fe [97] ⟨1, 2, 3, 4, 5⟩) ⟨0, 0⟩).2.2.2.2.1 rfl

/-! ## LexTokens: the per-file lexing loop -/

/-- Preprocessor keyword classification of a directive name
(`IdentifierInfo::getPPKeywordID`, a collaborator keyed by the interned
name; the keyword byte strings are `if`, `ifdef`, `ifndef`, `elif`, `else`,
`endif`, `include`, `import`, `include_next` and the remaining known
directive keywords, everything else being `pp_not_keyword`). -/
inductive PPKeyword : Type
  | ifLike
  | elseLike
  | endifKw
  | includeLike
  | otherKw
  | notKeyword
deriving Repr, DecidableEq

def ppKeywordOf (s : List Nat) : PPKeyword :=
  if s = [105, 102] ∨ s = [105, 102, 100, 101, 102] ∨
     s = [105, 102, 110, 100, 101, 102] then .ifLike
  else if s = [101, 108, 105, 102] ∨ s = [101, 108, 115, 101] then .elseLike
  else if s = [101, 110, 100, 105, 102] then .endifKw
  else if s = [105, 110, 99, 108, 117, 100, 101] ∨
          s = [105, 109, 112, 111, 114, 116] ∨
          s = [105, 110, 99, 108, 117, 100, 101, 95, 110, 101, 120, 116] then .includeLike
  else if s = [100, 101, 102, 105, 110, 101] ∨ s = [117, 110, 100, 101, 102] ∨
          s = [108, 105, 110, 101] ∨ s = [101, 114, 114, 111, 114] ∨
          s = [112, 114, 97, 103, 109, 97] ∨
          s = [119, 97, 114, 110, 105, 110, 103] then .otherKw
  else .notKeyword

/-- A PPCond table entry: the file-absolute offset at which the `#` token
was emitted and the back-patch target.  `closes`/`isEndif` are ghost tags
recording which directive created the entry (an `elif`/`else`/`endif`
closes the preceding block; emission ignores both tags). -/
structure PPCondEntry where
  hashOff : Nat
  target : Nat
  closes : Bool
  isEndif : Bool
deriving Repr, DecidableEq

def dfltEntry : PPCondEntry := ⟨0, 0, false, false⟩

/-- Loop state of `LexTokens`: writer state, the PPCond vector, the
start-stack (`PPStartCond`, head is `back()`) and the
`ParsingPreprocessorDirective` flag. -/
structure LexSt where
  w : WState
  ppCond : List PPCondEntry
  stack : List Nat
  ppd : Bool
deriving Repr, DecidableEq

/-- The token the raw lexer reports at end of input. -/
def eofTok : RawToken := ⟨.eof, 0, 0, 0, [], none⟩

def lexOne : List RawToken → RawToken × List RawToken
  | [] => (eofTok, [])
  | t :: ts => (t, ts)

/-- The `#endif` gibberish-discard loop:
`do L.LexFromRawLexer(Tok); while (!Tok.is(eof) && !Tok.isAtStartOfLine())`. -/
def skipLine : List RawToken → RawToken × List RawToken
  | [] => (eofTok, [])
  | t :: ts => if t.kind == .eof || isSOL t then (t, ts) else skipLine ts

/-- The end-of-directive insertion at the `NextToken` label: if directive
mode is on and the token in hand starts a line or is EOF, emit the
synthesized `eom` token (same location as the token in hand) and leave
directive mode. -/
def eomCheck (st : LexSt) (t : RawToken) : LexSt :=
  if st.ppd && (isSOL t || t.kind == .eof) then
    { st with w := emitToken (mkEom t) st.w, ppd := false }
  else st

/-- One pass of the `LexTokens` loop from the `NextToken` label, holding
token `t` with `ts` not yet lexed; `fuel` bounds the number of visits to
the label (`none` on exhaustion, and on any failed debug assertion). -/
def ptLoop : Nat → LexSt → RawToken → List RawToken → Option LexSt
  | 0, _, _, _ => none
  | fuel + 1, st0, t, ts =>
    let st := eomCheck st0 t
    if t.kind == .identifier then
      let st1 := { st with w := emitToken (setII t) st.w }
      ptLoop fuel st1 (lexOne ts).1 (lexOne ts).2
    else if t.kind == .hash && isSOL t then
      if st.ppd then none
      else
        let hashOff := st.w.out.length
        let st1 := { st with w := emitToken t st.w }
        let n := (lexOne ts).1
        let ts1 := (lexOne ts).2
        if isSOL n then none
        else if !(n.kind == .identifier) then
          let st2 := { st1 with w := emitToken n st1.w }
          ptLoop fuel st2 (lexOne ts1).1 (lexOne ts1).2
        else
          let n := setII n
          match ppKeywordOf n.text with
          | .notKeyword => none
          | .includeLike =>
            let st2 := { st1 with ppd := true, w := emitToken n st1.w }
            let fn := (lexOne ts1).1
            let ts2 := (lexOne ts1).2
            if isSOL fn then none
            else
              let fn := if fn.kind == .identifier then setII fn else fn
              let st3 := { st2 with w := emitToken fn st2.w }
              if fn.kind == .eof then some st3
              else ptLoop fuel st3 (lexOne ts2).1 (lexOne ts2).2
          | .ifLike =>
            let st2 := { st1 with
              ppd := true
              stack := st1.ppCond.length :: st1.stack
              ppCond := st1.ppCond ++ [(⟨hashOff, 0, false, false⟩ : PPCondEntry)] }
            let st3 := { st2 with w := emitToken n st2.w }
            ptLoop fuel st3 (lexOne ts1).1 (lexOne ts1).2
          | .elseLike =>
            match st1.stack with
            | [] => none
            | j :: rest =>
              if (st1.ppCond.length ≤ j) then none
              else if (st1.ppCond.getD j dfltEntry).target ≠ 0 then none
              else
                let idx := st1.ppCond.length
                let st2 := { st1 with
                  ppd := true
                  stack := idx :: rest
                  ppCond := modifyIdx st1.ppCond j
                      (fun e => { e with target := idx }) ++
                    [(⟨hashOff, 0, true, false⟩ : PPCondEntry)] }
                let st3 := { st2 with w := emitToken n st2.w }
                ptLoop fuel st3 (lexOne ts1).1 (lexOne ts1).2
          | .endifKw =>
            match st1.stack with
            | [] => none
            | j :: rest =>
              if (st1.ppCond.length ≤ j) then none
              else if (st1.ppCond.getD j dfltEntry).target ≠ 0 then none
              else
                let idx := st1.ppCond.length
                let st2 := { st1 with
                  ppd := true
                  stack := rest
                  ppCond := modifyIdx st1.ppCond j
                      (fun e => { e with target := idx }) ++
                    [(⟨hashOff, idx, true, true⟩ : PPCondEntry)] }
                let st3 := { st2 with w := emitToken n st2.w }
                ptLoop fuel st3 (skipLine ts1).1 (skipLine ts1).2
          | .otherKw =>
            let st2 := { st1 with ppd := true, w := emitToken n st1.w }
            ptLoop fuel st2 (lexOne ts1).1 (lexOne ts1).2
    else
      let st1 := { st with w := emitToken t st.w }
      if t.kind == .eof then some st1
      else ptLoop fuel st1 (lexOne ts).1 (lexOne ts).2

/-- Emission of the PPCond rows: for entry `i`, `u32 (hash_off - off)` and
`u32 (target == i ? 0 : target)`, with the `assert(x != 0)` modelled as a
`none` result. -/
def ppCondRows (off : Nat) : Nat → List PPCondEntry → Option (List Nat)
  | _, [] => some []
  | i, e :: rest =>
    if e.target = 0 then none
    else
      match ppCondRows off (i + 1) rest with
      | none => none
      | some bs =>
        some (enc32 (e.hashOff - off) ++
          enc32 (if e.target = i then 0 else e.target) ++ bs)

/-- `LexTokens` proper: pad to 4-byte alignment, record `off`, run the
loop (the first token is lexed at the loop head), require the start-stack
empty at EOF, then write `u32 PPCond.size()` and the rows.  Returns the
final writer state, `(token_off, ppcond_off)` and the in-memory table. -/
def runLexTokens (w0 : WState) (toks : List RawToken) :
    Option (WState × Nat × Nat × List PPCondEntry) :=
  let w1 := { w0 with out := w0.out ++ List.replicate (padLen4 w0.out.length) 0 }
  let off := w1.out.length
  let st0 : LexSt := ⟨w1, [], [], false⟩
  match ptLoop (toks.length + 2) st0 (lexOne toks).1 (lexOne toks).2 with
  | none => none
  | some st =>
    if st.stack.isEmpty then
      match ppCondRows off 0 st.ppCond with
      | none => none
      | some rows =>
        some ({ st.w with out := st.w.out ++ enc32 st.ppCond.length ++ rows },
              off, st.w.out.length, st.ppCond)
    else none

/-! ### C1: structure of the PPCond table -/

/-- What a settled (not-on-stack) PPCond entry looks like: an `#endif`
entry targets its own index (the in-memory self sentinel); any other entry
was back-patched to a strictly later entry of the table that was created by
its closing peer (`#elif`/`#else`/`#endif`). -/
def entryOk (tbl : List PPCondEntry) (i : Nat) : Prop :=
  ((tbl.getD i dfltEntry).isEndif = true ∧ (tbl.getD i dfltEntry).target = i) ∨
  ((tbl.getD i dfltEntry).isEndif = false ∧ i < (tbl.getD i dfltEntry).target ∧
    (tbl.getD i dfltEntry).target < tbl.length ∧
    (tbl.getD (tbl.getD i dfltEntry).target dfltEntry).closes = true)

/-- Loop invariant of `LexTokens` over the PPCond vector and the
start-stack: stack entries are indices of still-open (target 0, non-endif)
entries, the stack is strictly decreasing from its top, and every settled
entry satisfies `entryOk`. -/
def condInv (tbl : List PPCondEntry) (stk : List Nat) : Prop :=
  (∀ j ∈ stk, j < tbl.length ∧ (tbl.getD j dfltEntry).target = 0 ∧
     (tbl.getD j dfltEntry).isEndif = false) ∧
  stk.Pairwise (fun a b => b < a) ∧
  (∀ i, i < tbl.length → i ∉ stk → entryOk tbl i)

theorem getD_append_last (tbl : List PPCondEntry) (e : PPCondEntry) :
    (tbl ++ [e]).getD tbl.length dfltEntry = e := by
  rw [List.getD_append_right _ _ _ _ (Nat.le_refl _), Nat.sub_self]
  rfl

theorem entryOk_extend (tbl : List PPCondEntry) (j idx : Nat) (e1 : PPCondEntry)
    (i : Nat) (hi : i < tbl.length) (hij : i ≠ j) (h : entryOk tbl i) :
    entryOk (modifyIdx tbl j (fun e => { e with target := idx }) ++ [e1]) i := by
  have hmlen : (modifyIdx tbl j (fun e => { e with target := idx })).length =
      tbl.length := modifyIdx_length _ _ _
  have hgi : (modifyIdx tbl j (fun e => { e with target := idx }) ++ [e1]).getD i
      dfltEntry = tbl.getD i dfltEntry := by
    rw [List.getD_append _ _ _ _ (by omega), modifyIdx_getD,
      if_neg (by intro hc; exact hij hc.1.symm)]
  rcases h with ⟨h1, h2⟩ | ⟨h1, h2, h3, h4⟩
  · exact Or.inl ⟨by rw [hgi]; exact h1, by rw [hgi]; exact h2⟩
  · refine Or.inr ⟨by rw [hgi]; exact h1, by rw [hgi]; exact h2, ?_, ?_⟩
    · rw [hgi]
      simp only [List.length_append, List.length_cons, List.length_nil, hmlen]
      omega
    · rw [hgi]
      rw [List.getD_append _ _ _ _ (by omega), modifyIdx_getD]
      by_cases hc : j = (tbl.getD i dfltEntry).target ∧
          (tbl.getD i dfltEntry).target < tbl.length
      · rw [if_pos hc]
        exact h4
      · rw [if_neg hc]
        exact h4

/-- Opening a conditional (`#if`/`#ifdef`/`#ifndef`) preserves the
invariant. -/
theorem condInv_push (tbl : List PPCondEntry) (stk : List Nat) (hOff : Nat)
    (h : condInv tbl stk) :
    condInv (tbl ++ [(⟨hOff, 0, false, false⟩ : PPCondEntry)])
      (tbl.length :: stk) := by
  obtain ⟨h1, h2, h3⟩ := h
  refine ⟨?_, ?_, ?_⟩
  · intro j hj
    rcases List.mem_cons.mp hj with rfl | hj
    · refine ⟨by simp, ?_, ?_⟩ <;> rw [getD_append_last]
    · obtain ⟨ha, hb, hc⟩ := h1 j hj
      refine ⟨by simp only [List.length_append, List.length_cons, List.length_nil]; omega,
        ?_, ?_⟩ <;> rw [List.getD_append _ _ _ _ (by omega)] <;> assumption
  · rw [List.pairwise_cons]
    exact ⟨fun b hb => (h1 b hb).1, h2⟩
  · intro i hlen hmem
    have hne : i ≠ tbl.length := fun hc => hmem (hc ▸ List.mem_cons_self _ _)
    have hi : i < tbl.length := by
      simp only [List.length_append, List.length_cons, List.length_nil] at hlen
      omega
    have hmem2 : i ∉ stk := fun hc => hmem (List.mem_cons_of_mem _ hc)
    have hok := h3 i hi hmem2
    have := entryOk_extend tbl tbl.length 0 ⟨hOff, 0, false, false⟩ i hi hne ?_
    · rw [show modifyIdx tbl tbl.length (fun e => { e with target := 0 }) = tbl from ?_]
        at this
      · exact this
      · have hgetd := modifyIdx_getD tbl tbl.length
        apply List.ext_getElem
        · rw [modifyIdx_length]
        · intro n h1n h2n
          rw [← List.getD_eq_getElem _ dfltEntry, ← List.getD_eq_getElem _ dfltEntry,
            modifyIdx_getD, if_neg (by rw [modifyIdx_length] at h1n; omega)]
    · exact hok

theorem getD_backpatch_at (tbl : List PPCondEntry) (j : Nat) (e1 : PPCondEntry)
    (hj : j < tbl.length) :
    (modifyIdx tbl j (fun e => { e with target := tbl.length }) ++ [e1]).getD j
      dfltEntry = { tbl.getD j dfltEntry with target := tbl.length } := by
  rw [List.getD_append _ _ _ _ (by rw [modifyIdx_length]; omega), modifyIdx_getD,
    if_pos ⟨rfl, hj⟩]

theorem getD_backpatch_new (tbl : List PPCondEntry) (j : Nat) (e1 : PPCondEntry) :
    (modifyIdx tbl j (fun e => { e with target := tbl.length }) ++ [e1]).getD
      tbl.length dfltEntry = e1 := by
  rw [List.getD_append_right _ _ _ _ (by rw [modifyIdx_length])]
  rw [modifyIdx_length, Nat.sub_self]
  rfl

theorem getD_backpatch_other (tbl : List PPCondEntry) (j x : Nat) (e1 : PPCondEntry)
    (hx : x < tbl.length) (hxj : x ≠ j) :
    (modifyIdx tbl j (fun e => { e with target := tbl.length }) ++ [e1]).getD x
      dfltEntry = tbl.getD x dfltEntry := by
  rw [List.getD_append _ _ _ _ (by rw [modifyIdx_length]; omega), modifyIdx_getD,
    if_neg (by intro hc; exact hxj hc.1.symm)]

theorem backpatch_length (tbl : List PPCondEntry) (j : Nat) (e1 : PPCondEntry) :
    (modifyIdx tbl j (fun e => { e with target := tbl.length }) ++ [e1]).length =
      tbl.length + 1 := by
  simp [modifyIdx_length]

/-- An `#elif`/`#else` back-patches the innermost open entry to the index
it will itself occupy, pops it, and pushes its own (open, closing) entry:
the invariant is preserved. -/
theorem condInv_elseLike (tbl : List PPCondEntry) (j : Nat) (rest : List Nat)
    (hOff : Nat) (h : condInv tbl (j :: rest)) (hj : j < tbl.length) :
    condInv (modifyIdx tbl j (fun e => { e with target := tbl.length }) ++
        [(⟨hOff, 0, true, false⟩ : PPCondEntry)])
      (tbl.length :: rest) := by
  obtain ⟨h1, h2, h3⟩ := h
  have hrest : ∀ x ∈ rest, x < j := (List.pairwise_cons.mp h2).1
  have hjrest : j ∉ rest := fun hc => absurd (hrest j hc) (by omega)
  refine ⟨?_, ?_, ?_⟩
  · intro x hx
    rcases List.mem_cons.mp hx with rfl | hx
    · rw [getD_backpatch_new, backpatch_length]
      exact ⟨by omega, rfl, rfl⟩
    · have hxj : x < j := hrest x hx
      obtain ⟨ha, hb, hc⟩ := h1 x (List.mem_cons_of_mem _ hx)
      rw [getD_backpatch_other tbl j x _ (by omega) (by omega), backpatch_length]
      exact ⟨by omega, hb, hc⟩
  · rw [List.pairwise_cons]
    exact ⟨fun b hb => by have := hrest b hb; omega,
      (List.pairwise_cons.mp h2).2⟩
  · intro i hlen hmem
    rw [backpatch_length] at hlen
    have hne : i ≠ tbl.length := fun hc => hmem (hc ▸ List.mem_cons_self _ _)
    have hi : i < tbl.length := by omega
    by_cases hij : i = j
    · subst hij
      obtain ⟨_, hb, hc⟩ := h1 i (List.mem_cons_self _ _)
      refine Or.inr ⟨?_, ?_, ?_, ?_⟩
      · rw [getD_backpatch_at _ _ _ hi]
        exact hc
      · rw [getD_backpatch_at _ _ _ hi]
        exact hi
      · rw [getD_backpatch_at _ _ _ hi, backpatch_length]
        show tbl.length < tbl.length + 1
        omega
      · rw [getD_backpatch_at _ _ _ hi]
        show ((modifyIdx tbl i (fun e => { e with target := tbl.length }) ++
          [(⟨hOff, 0, true, false⟩ : PPCondEntry)]).getD tbl.length dfltEntry).closes = true
        rw [getD_backpatch_new]
    · have hmem2 : i ∉ j :: rest := by
        intro hc
        rcases List.mem_cons.mp hc with rfl | hc
        · exact hij rfl
        · exact hmem (List.mem_cons_of_mem _ hc)
      exact entryOk_extend tbl j tbl.length _ i hi hij (h3 i hi hmem2)

/-- An `#endif` back-patches the innermost open entry to its own index,
pops it, and appends its own self-targeting entry, now settled: the
invariant is preserved. -/
theorem condInv_endif (tbl : List PPCondEntry) (j : Nat) (rest : List Nat)
    (hOff : Nat) (h : condInv tbl (j :: rest)) (hj : j < tbl.length) :
    condInv (modifyIdx tbl j (fun e => { e with target := tbl.length }) ++
        [(⟨hOff, tbl.length, true, true⟩ : PPCondEntry)])
      rest := by
  obtain ⟨h1, h2, h3⟩ := h
  have hrest : ∀ x ∈ rest, x < j := (List.pairwise_cons.mp h2).1
  refine ⟨?_, (List.pairwise_cons.mp h2).2, ?_⟩
  · intro x hx
    have hxj : x < j := hrest x hx
    obtain ⟨ha, hb, hc⟩ := h1 x (List.mem_cons_of_mem _ hx)
    rw [getD_backpatch_other tbl j x _ (by omega) (by omega), backpatch_length]
    exact ⟨by omega, hb, hc⟩
  · intro i hlen hmem
    rw [backpatch_length] at hlen
    by_cases hilen : i = tbl.length
    · subst hilen
      exact Or.inl ⟨by rw [getD_backpatch_new], by rw [getD_backpatch_new]⟩
    · have hi : i < tbl.length := by omega
      by_cases hij : i = j
      · subst hij
        obtain ⟨_, hb, hc⟩ := h1 i (List.mem_cons_self _ _)
        refine Or.inr ⟨?_, ?_, ?_, ?_⟩
        · rw [getD_backpatch_at _ _ _ hi]
          exact hc
        · rw [getD_backpatch_at _ _ _ hi]
          exact hi
        · rw [getD_backpatch_at _ _ _ hi, backpatch_length]
          show tbl.length < tbl.length + 1
          omega
        · rw [getD_backpatch_at _ _ _ hi]
          show ((modifyIdx tbl i (fun e => { e with target := tbl.length }) ++
            [(⟨hOff, tbl.length, true, true⟩ : PPCondEntry)]).getD tbl.length
              dfltEntry).closes = true
          rw [getD_backpatch_new]
      · have hmem2 : i ∉ j :: rest := by
          intro hc
          rcases List.mem_cons.mp hc with rfl | hc
          · exact hij rfl
          · exact hmem hc
        exact entryOk_extend tbl j tbl.length _ i hi hij (h3 i hi hmem2)

theorem eomCheck_ppCond (st : LexSt) (t : RawToken) :
    (eomCheck st t).ppCond = st.ppCond := by
  rw [eomCheck]; split <;> rfl

theorem eomCheck_stack (st : LexSt) (t : RawToken) :
    (eomCheck st t).stack = st.stack := by
  rw [eomCheck]; split <;> rfl

/-- The loop preserves the PPCond invariant. -/
theorem ptLoop_inv (fuel : Nat) : ∀ (st : LexSt) (t : RawToken) (ts : List RawToken)
    (res : LexSt), condInv st.ppCond st.stack →
    ptLoop fuel st t ts = some res → condInv res.ppCond res.stack := by
  induction fuel with
  | zero =>
    intro st t ts res _ h
    rw [ptLoop] at h
    exact Option.noConfusion h
  | succ fuel ih =>
    intro st t ts res hinv h
    have hinv1 : condInv (eomCheck st t).ppCond (eomCheck st t).stack := by
      rw [eomCheck_ppCond, eomCheck_stack]
      exact hinv
    simp only [ptLoop] at h
    split at h
    · refine ih _ _ _ res ?_ h
      exact hinv1
    · split at h
      · split at h
        · exact Option.noConfusion h
        · split at h
          · exact Option.noConfusion h
          · split at h
            · refine ih _ _ _ res ?_ h
              exact hinv1
            · split at h
              · exact Option.noConfusion h
              · split at h
                · exact Option.noConfusion h
                · split at h
                  · split at h
                    · cases h
                      exact hinv1
                    · refine ih _ _ _ res ?_ h
                      exact hinv1
                  · split at h
                    · cases h
                      exact hinv1
                    · refine ih _ _ _ res ?_ h
                      exact hinv1
              · refine ih _ _ _ res ?_ h
                exact condInv_push _ _ _ hinv1
              · split at h
                · exact Option.noConfusion h
                · next j rest heq =>
                  split at h
                  · exact Option.noConfusion h
                  · next hble =>
                    split at h
                    · exact Option.noConfusion h
                    · next htz =>
                      have hinv2 : condInv (eomCheck st t).ppCond (j :: rest) := by
                        rw [← heq]
                        exact hinv1
                      refine ih _ _ _ res ?_ h
                      exact condInv_elseLike _ _ _ _ hinv2 (by omega)
              · split at h
                · exact Option.noConfusion h
                · next j rest heq =>
                  split at h
                  · exact Option.noConfusion h
                  · next hble =>
                    split at h
                    · exact Option.noConfusion h
                    · next htz =>
                      have hinv2 : condInv (eomCheck st t).ppCond (j :: rest) := by
                        rw [← heq]
                        exact hinv1
                      refine ih _ _ _ res ?_ h
                      exact condInv_endif _ _ _ _ hinv2 (by omega)
              · refine ih _ _ _ res ?_ h
                exact hinv1
      · split at h
        · cases h
          exact hinv1
        · refine ih _ _ _ res ?_ h
          exact hinv1

/-- A successful PPCond row emission is the per-entry encoding
`(hash_off - token_off, target == self ? 0 : target)`. -/
theorem ppCondRows_spec (off : Nat) :
    ∀ (tbl : List PPCondEntry) (i : Nat) (bs : List Nat),
      ppCondRows off i tbl = some bs →
      bs = (List.enumFrom i tbl).bind
        (fun p => enc32 (p.2.hashOff - off) ++
          enc32 (if p.2.target = p.1 then 0 else p.2.target)) := by
  intro tbl
  induction tbl with
  | nil =>
    intro i bs h
    rw [ppCondRows] at h
    cases h
    rfl
  | cons e rest ih =>
    intro i bs h
    rw [ppCondRows] at h
    split at h
    · exact Option.noConfusion h
    · split at h
      · exact Option.noConfusion h
      · next bs' hbs' =>
        cases h
        rw [ih (i + 1) bs' hbs']
        rfl

/-- The tokens of the nested-conditionals scenario
`#if A`, `#if B`, `#endif`, `#endif`. -/
def exC1Toks : List RawToken :=
  [⟨.hash, 1, 1, 0, [35], none⟩,
   ⟨.identifier, 0, 2, 1, [105, 102], none⟩,
   ⟨.identifier, 0, 1, 4, [65], none⟩,
   ⟨.hash, 1, 1, 6, [35], none⟩,
   ⟨.identifier, 0, 2, 7, [105, 102], none⟩,
   ⟨.identifier, 0, 1, 10, [66], none⟩,
   ⟨.hash, 1, 1, 12, [35], none⟩,
   ⟨.identifier, 0, 5, 13, [101, 110, 100, 105, 102], none⟩,
   ⟨.hash, 1, 1, 19, [35], none⟩,
   ⟨.identifier, 0, 5, 20, [101, 110, 100, 105, 102], none⟩,
   ⟨.eof, 0, 0, 26, [], none⟩]

/-- C1: when `LexTokens` completes (all its debug assertions pass, which in
particular requires the file's conditionals to be balanced), every `#endif`
entry of the PPCond table holds its own index as the in-memory
self-sentinel; every other (opening) entry was back-patched to a strictly
later entry created by a closing peer directive; on disk each entry is the
pair `(hash_off - token_off, target)` with the self-sentinel rewritten to 0
— so the on-disk target is 0 exactly for `#endif` entries; and the input
`#if A`, `#if B`, `#endif`, `#endif` yields 4 entries with on-disk targets
`[3, 2, 0, 0]`. -/
theorem C1_ppcond (w0 : WState) (toks : List RawToken)
    (res : WState × Nat × Nat × List PPCondEntry)
    (h : runLexTokens w0 toks = some res) :
    (∀ i, i < res.2.2.2.length →
      ((res.2.2.2.getD i dfltEntry).isEndif = true →
        (res.2.2.2.getD i dfltEntry).target = i) ∧
      ((res.2.2.2.getD i dfltEntry).isEndif = false →
        i < (res.2.2.2.getD i dfltEntry).target ∧
        (res.2.2.2.getD i dfltEntry).target < res.2.2.2.length ∧
        (res.2.2.2.getD (res.2.2.2.getD i dfltEntry).target dfltEntry).closes = true) ∧
      ((if (res.2.2.2.getD i dfltEntry).target = i then 0
        else (res.2.2.2.getD i dfltEntry).target) = 0 ↔
        (res.2.2.2.getD i dfltEntry).isEndif = true)) ∧
    (∃ pre, res.1.out = pre ++ enc32 res.2.2.2.length ++
        (res.2.2.2.enum.bind (fun p => enc32 (p.2.hashOff - res.2.1) ++
          enc32 (if p.2.target = p.1 then 0 else p.2.target))) ∧
      pre.length = res.2.2.1) ∧
    ((runLexTokens ⟨[], [], [], 0⟩ exC1Toks).map
      (fun r => (r.2.2.2.length,
        r.2.2.2.enum.map (fun p => if p.2.target = p.1 then 0 else p.2.target)))) =
      some (4, [3, 2, 0, 0]) := by
  simp only [runLexTokens] at h
  split at h
  · exact Option.noConfusion h
  · next st hpt =>
    split at h
    · next hempty =>
      split at h
      · exact Option.noConfusion h
      · next rows hrows =>
        cases h
        have hstack : st.stack = [] := by
          cases hs : st.stack
          · rfl
          · rw [hs] at hempty
            simp [List.isEmpty] at hempty
        have hinit : condInv ([] : List PPCondEntry) ([] : List Nat) :=
          ⟨fun j hj => absurd hj (List.not_mem_nil j),
           List.Pairwise.nil,
           fun i hi _ => absurd hi (by simp)⟩
        have hcinv := ptLoop_inv (toks.length + 2) _ _ _ st hinit hpt
        rw [hstack] at hcinv
        obtain ⟨_, _, hok⟩ := hcinv
        dsimp only
        refine ⟨?_, ?_, by decide⟩
        · intro i hi
          have he := hok i hi (List.not_mem_nil i)
          rcases he with ⟨h1, h2⟩ | ⟨h1, h2, h3, h4⟩
          · refine ⟨fun _ => h2, fun hc => absurd h1 (by rw [hc]; simp), ?_⟩
            rw [if_pos h2]
            exact ⟨fun _ => h1, fun _ => rfl⟩
          · refine ⟨fun hc => absurd h1 (by rw [hc]; simp), fun _ => ⟨h2, h3, h4⟩, ?_⟩
            rw [if_neg (by omega)]
            constructor
            · intro hz
              omega
            · intro hz
              rw [h1] at hz
              exact Bool.noConfusion hz
        · refine ⟨st.w.out, ?_, rfl⟩
          rw [ppCondRows_spec _ _ _ _ hrows]
          rfl
    · exact Option.noConfusion h

def exC1Res : WState × Nat × Nat × List PPCondEntry :=
  (runLexTokens ⟨[], [], [], 0⟩ exC1Toks).getD (⟨[], [], [], 0⟩, 0, 0, [])

set_option maxRecDepth 100000 in
/-- Witness for C1 at the concrete nested-conditionals input: entry 2 (the
inner `#endif`) has on-disk target 0. -/
theorem C1_ppcond_witness :
    (if (exC1Res.2.2.2.getD 2 dfltEntry).target = 2 then 0
     else (exC1Res.2.2.2.getD 2 dfltEntry).target) = 0 :=
  ((C1_ppcond ⟨[], [], [], 0⟩ exC1Toks exC1Res (by decide)).1 2
    (by decide)).2.2.mpr (by decide)

/-! ### C9: the synthesized end-of-directive token -/

/-- C9: when directive mode is on and the token in hand starts a line or is
EOF, the loop emits the synthesized `eom` token and leaves directive mode;
the `eom` record has word1 = 0 (identifier handle nulled), the StartOfLine
flag cleared (both at the token and in bit 8 of word0), and word2 equal to
the file offset of the following token, whose location it copies. -/
theorem C9_eom (st : LexSt) (t : RawToken) (h1 : st.ppd = true)
    (h2 : isSOL t = true ∨ t.kind = .eof) :
    eomCheck st t = { st with w := emitToken (mkEom t) st.w, ppd := false } ∧
    (emitToken (mkEom t) st.w).out =
      st.w.out ++ (enc32 (kindCode .eom ||| ((t.flags - t.flags % 2) <<< 8) |||
        (t.length <<< 16)) ++ (enc32 0 ++ enc32 t.fileOffset)) ∧
    isSOL (mkEom t) = false ∧
    Nat.testBit (kindCode .eom ||| ((t.flags - t.flags % 2) <<< 8) |||
      (t.length <<< 16)) 8 = false ∧
    decode32 (((emitToken (mkEom t) st.w).out.drop (st.w.out.length + 4)).take 4) = 0 ∧
    decode32 (((emitToken (mkEom t) st.w).out.drop (st.w.out.length + 8)).take 4) =
      t.fileOffset % 2 ^ 32 := by
  have hbytes := emitToken_out (mkEom t) st.w
  have hmk : (mkEom t).kind = .eom := rfl
  have hw1 : (if (mkEom t).kind.isLiteral then (poolLookup st.w (mkEom t).text).1
      else (resolveID st.w (mkEom t).ii).1) = 0 := rfl
  rw [hw1] at hbytes
  refine ⟨?_, hbytes, ?_, ?_, ?_, ?_⟩
  · rw [eomCheck, if_pos]
    rcases h2 with h | h <;> rw [h1, h] <;> simp
  · show ((t.flags - t.flags % 2) % 2 == 1) = false
    simp only [beq_eq_false_iff_ne, ne_eq]
    omega
  · rw [Nat.testBit_or, Nat.testBit_or, Nat.testBit_shiftLeft, Nat.testBit_shiftLeft]
    have hk : Nat.testBit (kindCode .eom) 8 = false := by decide
    have hf : Nat.testBit (t.flags - t.flags % 2) 0 = false := by
      rw [Nat.testBit_zero]
      simp only [decide_eq_false_iff_not]
      omega
    rw [hk]
    simp [hf]
  · have := emitToken_word1_decode (mkEom t) st.w
    rw [hw1] at this
    simpa using this
  · have := emitToken_word2_decode (mkEom t) st.w
    simpa using this

/-- Witness for C9 at a concrete state: the start-of-line hash that ends an
open directive triggers the `eom` emission with directive mode cleared. -/
theorem C9_eom_witness :
    eomCheck ⟨⟨[], [], [], 0⟩, [], [], true⟩ ⟨.hash, 1, 1, 6, [35], none⟩ =
      { (⟨⟨[], [], [], 0⟩, [], [], true⟩ : LexSt) with
        w := emitToken (mkEom ⟨.hash, 1, 1, 6, [35], none⟩) ⟨[], [], [], 0⟩
        ppd := false } :=
  (C9_eom ⟨⟨[], [], [], 0⟩, [], [], true⟩ ⟨.hash, 1, 1, 6, [35], none⟩ rfl
    (Or.inl rfl)).1

/-! ### C10: a hash not at start of line -/

/-- C10: a `#` token that is not at the start of a line never opens a
directive: the loop emits it as an ordinary 12-byte token and goes straight
back to lexing, with the PPCond table, the start-stack and the directive
flag untouched. -/
theorem C10_hash_not_sol (fuel : Nat) (st : LexSt) (t : RawToken)
    (ts : List RawToken) (h1 : t.kind = .hash) (h2 : isSOL t = false) :
    ptLoop (fuel + 1) st t ts =
      ptLoop fuel { st with w := emitToken t st.w } (lexOne ts).1 (lexOne ts).2 ∧
    eomCheck st t = st ∧
    (emitToken t st.w).out.length = st.w.out.length + 12 ∧
    ({ st with w := emitToken t st.w } : LexSt).ppCond = st.ppCond ∧
    ({ st with w := emitToken t st.w } : LexSt).stack = st.stack ∧
    ({ st with w := emitToken t st.w } : LexSt).ppd = st.ppd := by
  have hec : eomCheck st t = st := by
    rw [eomCheck, if_neg]
    rw [h1, h2]
    simp
  refine ⟨?_, hec, emitToken_len12 t st.w, rfl, rfl, rfl⟩
  simp only [ptLoop]
  rw [hec]
  rw [if_neg (by rw [h1]; decide), if_neg (by rw [h1, h2]; decide),
    if_neg (by rw [h1]; decide)]

/-- Witness for C10 at a concrete input: a non-start-of-line hash leaves
the `NextToken` pre-state unchanged. -/
theorem C10_hash_not_sol_witness :
    eomCheck ⟨⟨[], [], [], 0⟩, [], [], false⟩ ⟨.hash, 0, 1, 6, [35], none⟩ =
      ⟨⟨[], [], [], 0⟩, [], [], false⟩ :=
  (C10_hash_not_sol 0 ⟨⟨[], [], [], 0⟩, [], [], false⟩ ⟨.hash, 0, 1, 6, [35], none⟩
    [] rfl rfl).2.1

/-! ### C8: file skipping and the output-stream failure path -/

/-- A source-manager file entry: its path, whether the path is absolute
(`llvm::sys::Path::isAbsolute`, a collaborator), its content buffer (absent
when `ContentCache::getBuffer` fails), as the token stream the raw lexer
would produce from it, and its stat metadata. -/
structure SMFile where
  path : List Nat
  isAbs : Bool
  buffer : Option (List RawToken)
  stat : FileStat

/-- The key of `PTHIdentifierTableTrait`: the identifier name and its
persistent ID (standing in for the `PTHIdKey*` identity). -/
structure PTHIdKeyM where
  name : List Nat
  id : Nat
deriving Repr, DecidableEq

/-- `PTHIdentifierTableTrait`: `u16 (strlen+1)` length prologue only, the
NUL-terminated name as key, `u32` persistent ID as data. -/
def idTableInfo : HInfo PTHIdKeyM Nat :=
  { computeHash := fun k => bernsteinHash k.name,
    emitKeyDataLength := fun k _ => (enc16 (k.name.length + 1), k.name.length + 1, 4),
    emitKey := fun k n => (k.name ++ [0]).take n,
    emitData := fun _ d _ => enc32 d }

/-- Replay of the `Emit` traversal recording, for every item, the file
offset at which its key bytes begin (`key->FileOffset = Out.tell()` in
`PTHIdentifierTableTrait::EmitKey`). -/
def bucketKeyOffs {κ δ : Type} (info : HInfo κ δ) : Nat → List (HItem κ δ) →
    List (κ × Nat)
  | _, [] => []
  | off, it :: rest =>
    let kdl := info.emitKeyDataLength it.key it.data
    let koff := off + 4 + kdl.1.length
    (it.key, koff) ::
      bucketKeyOffs info (koff + (info.emitKey it.key kdl.2.1).length +
        (info.emitData it.key it.data kdl.2.2).length) rest

def keyOffsets {κ δ : Type} (info : HInfo κ δ) (startOff : Nat) :
    List (List (HItem κ δ)) → List (κ × Nat)
  | [] => []
  | b :: bs =>
    match b with
    | [] => keyOffsets info startOff bs
    | x :: xs =>
      bucketKeyOffs info (startOff + 2) (x :: xs) ++
        keyOffsets info (startOff + (bucketPayload info (x :: xs)).length) bs

/-- `PTHWriter::EmitIdentifierTable`: build the name-to-ID hash table from
the identifier map, emit it (recording per-key file offsets), then emit
`u32 idcount` and the ID-indexed offsets.  Returns `(IDOff,
StringTableOffset)`. -/
def emitIdentifierTable (w : WState) : WState × Nat × Nat :=
  let inserts := (List.enum w.im).map
    (fun p => ((⟨p.2, p.1 + 1⟩ : PTHIdKeyM), p.1 + 1))
  let g := htInsertAll idTableInfo inserts
  let eb := htEmit idTableInfo g w.out.length
  let offs := keyOffsets idTableInfo w.out.length g.buckets
  let idcount := w.im.length
  let idOff := w.out.length + eb.1.length
  ({ w with out := w.out ++ eb.1 ++ enc32 idcount ++
      ((List.range idcount).bind (fun i =>
        enc32 (((offs.find? (fun p => p.1.id == i + 1)).map Prod.snd).getD 0))) },
   idOff, eb.2)

/-- The iteration of `GeneratePTH` over the source manager: skip files with
a non-absolute path or a missing buffer; lex each remaining file and record
its file-map insertion. -/
def processFiles : List SMFile → WState →
    Option (WState × List (PTHEntryKeyVariant × PTHEntry))
  | [], w => some (w, [])
  | f :: rest, w =>
    if f.isAbs = false then processFiles rest w
    else
      match f.buffer with
      | none => processFiles rest w
      | some toks =>
        match runLexTokens w toks with
        | none => none
        | some r =>
          match processFiles rest r.1 with
          | none => none
          | some wr =>
            some (wr.1, (PTHEntryKeyVariant.fe f.path f.stat,
              (⟨r.2.1, r.2.2.1⟩ : PTHEntry)) :: wr.2)

/-- `PTHManager::Version` (a collaborator constant from the PTH reader
header; its value does not matter to the claims below). -/
def pthVersion : Nat := 1

def magicBytes : List Nat := [99, 102, 101, 45, 112, 116, 104]

/-- `Out.seek(pos)` followed by writes, as a splice into the byte list. -/
def writeAt (out : List Nat) (pos : Nat) (bytes : List Nat) : List Nat :=
  out.take pos ++ bytes ++ out.drop (pos + bytes.length)

/-- `PTHWriter::GeneratePTH`: magic, version, 16 reserved prologue bytes;
lex every kept file; identifier tables; spelling pool; file table; then
back-patch the prologue. -/
def generatePTH (files : List SMFile) : Option (List Nat) :=
  let w0 : WState := ⟨magicBytes ++ enc32 pthVersion ++ List.replicate 16 0, [], [], 0⟩
  match processFiles files w0 with
  | none => none
  | some wpm =>
    let it := emitIdentifierTable wpm.1
    let sp := emitCachedSpellings it.1
    let g := htInsertAll fileEntryPTHEntryInfo wpm.2
    let fb := htEmit fileEntryPTHEntryInfo g sp.1.out.length
    some (writeAt (sp.1.out ++ fb.1) (magicBytes ++ enc32 pthVersion).length
      (enc32 it.2.1 ++ enc32 it.2.2 ++ enc32 fb.2 ++ enc32 sp.2))

/-- `clang::CacheTokens`: on an output-stream open failure (`ErrMsg`
non-empty) log `PTH error: <message>` and return without constructing the
writer; otherwise run the writer. -/
def cacheTokens (errMsg : String) (files : List SMFile) :
    String × Option (Option (List Nat)) :=
  if errMsg ≠ "" then ("PTH error: " ++ errMsg ++ "\n", none)
  else ("", some (generatePTH files))

theorem processFiles_skip (f : SMFile) (hf : f.isAbs = false ∨ f.buffer = none) :
    ∀ (pre post : List SMFile) (w : WState),
      processFiles (pre ++ f :: post) w = processFiles (pre ++ post) w := by
  intro pre
  induction pre with
  | nil =>
    intro post w
    show processFiles (f :: post) w = processFiles post w
    rcases hf with h | h
    · rw [processFiles, if_pos h]
    · by_cases ha : f.isAbs = false
      · rw [processFiles, if_pos ha]
      · rw [processFiles, if_neg ha, h]
  | cons g rest ih =>
    intro post w
    show processFiles (g :: (rest ++ f :: post)) w =
      processFiles (g :: (rest ++ post)) w
    by_cases hg : g.isAbs = false
    · rw [processFiles, if_pos hg, processFiles, if_pos hg]
      exact ih post w
    · rw [processFiles, if_neg hg, processFiles, if_neg hg]
      cases hb : g.buffer with
      | none => exact ih post w
      | some toks =>
        cases hr : runLexTokens w toks with
        | none => simp only [hr]
        | some r =>
          simp only [hr]
          rw [ih post r.1]

/-- C8: a source-manager file whose path is not absolute or whose buffer is
absent is silently skipped — it contributes no token stream, PPCond table
or file-map entry, and the remaining files are processed exactly as if it
were not there — and when opening the output stream fails, the driver logs
`PTH error: ` followed by the message and returns without constructing the
writer or emitting any artifact bytes. -/
theorem C8_skip_and_error :
    (∀ (pre post : List SMFile) (f : SMFile) (w : WState),
      f.isAbs = false ∨ f.buffer = none →
      processFiles (pre ++ f :: post) w = processFiles (pre ++ post) w) ∧
    (∀ (pre post : List SMFile) (f : SMFile),
      f.isAbs = false ∨ f.buffer = none →
      generatePTH (pre ++ f :: post) = generatePTH (pre ++ post)) ∧
    (∀ (msg : String) (files : List SMFile), msg ≠ "" →
      cacheTokens msg files = ("PTH error: " ++ msg ++ "\n", none)) ∧
    (∀ files, cacheTokens "" files = ("", some (generatePTH files))) := by
  refine ⟨fun pre post f w hf => processFiles_skip f hf pre post w, ?_, ?_, ?_⟩
  · intro pre post f hf
    rw [generatePTH, generatePTH, processFiles_skip f hf pre post]
  · intro msg files hmsg
    rw [cacheTokens, if_pos hmsg]
  · intro files
    rw [cacheTokens, if_neg (by simp)]

/-- Witness for C8 at a concrete input: a failed open with message `boom`
logs the prefixed message and produces no artifact. -/
theorem C8_skip_and_error_witness :
    cacheTokens "boom" [] = ("PTH error: boom\n", none) :=
  C8_skip_and_error.2.2.1 "boom" [] (by decide)
